import Mathlib

/-!
Verification development for the WorkLock allocation ledger of this
repository.  The ledger contract itself is not present under `src/` (only
its test suite is), so the state machine below is modelled from the
specification's data model (spec §3), component design (spec §4) and error
taxonomy (spec §7), with the per-operation preconditions pinned down by the
repository's test suite (`src/tests/blockchain/eth/contracts/main/worklock/
test_worklock.py`) wherever the tests assert concrete behaviour.

Machine integers are modelled as `Nat`; amounts in the real system are far
below 2^256 so no wrap-around arithmetic occurs in any modelled scenario.
Each public operation is a pure function `State → Except Err State`; a
failed call returns `Except.error` and, as on the host chain, leaves the
pre-state as the observable state (transactions revert atomically).
-/

namespace WorkLock

/-- Addresses, modelled as naturals (ordered, decidable equality). -/
abbrev Addr := Nat

/-- Modelled from the spec: one `BidEntry` per bidder (spec §3) with the
test-visible field layout `(depositedETH, completedWork, claimed, index)`:
`depositedETH` is the deposited collateral, `completedWork` the
already-compensated work baseline used by the refund engine, `claimed` the
one-time claim flag and `index` the entry's position in the ordered bidder
list. -/
structure WorkInfo where
  depositedETH : Nat
  completedWork : Nat
  claimed : Bool
  index : Nat
deriving DecidableEq

/-- The all-zero entry: what `workInfo` reports for an address that never
bid (or whose entry was deleted by cancellation). -/
def WorkInfo.empty : WorkInfo := ⟨0, 0, false, 0⟩

/-- Modelled from the spec: the immutable deployment parameters (spec §3):
allocation supply, phase boundaries, economic constants, and the abstract
per-entry cost `checkCost` of one verification step (spec §9 treats the
host's gas bound as an opaque per-call budget). -/
structure Params where
  tokenSupply : Nat
  startBidDate : Nat
  endBidDate : Nat
  endCancellationDate : Nat
  minAllowedBid : Nat
  boostingRefund : Nat
  slowingRefund : Nat
  stakingPeriods : Nat
  maxAllowableLockedTokens : Nat
  checkCost : Nat
deriving DecidableEq

/-- Well-formed deployment parameters: ordered phase boundaries (spec §3:
"monotonic timestamps"), a positive minimum bid, a positive per-entry
verification cost and a positive boosting ratio not exceeding the slowing
constant (the repository fixes `SLOWING_REFUND = 100` and its deployments
use `boostingRefund ∈ {50, 100}`). -/
def ParamsWF (P : Params) : Prop :=
  P.startBidDate ≤ P.endBidDate ∧ P.endBidDate ≤ P.endCancellationDate ∧
  0 < P.minAllowedBid ∧ 0 < P.checkCost ∧
  0 < P.boostingRefund ∧ P.boostingRefund ≤ P.slowingRefund

instance (P : Params) : Decidable (ParamsWF P) := by
  unfold ParamsWF; infer_instance

/-- Events emitted by successful operations (spec §6). -/
inductive Event where
  | bidPlaced (sender : Addr) (value : Nat)
  | canceled (sender : Addr) (value : Nat)
  | forceRefunded (sender bidder : Addr) (value : Nat)
  | biddersChecked (sender : Addr) (startIndex endIndex : Nat)
  | claimedTokens (sender : Addr) (tokens : Nat)
  | refunded (sender : Addr) (value : Nat)
deriving DecidableEq

/-- Modelled from the spec: the ledger's `GlobalState` (spec §3) plus the
host-level observables the claims talk about: the contract's held
collateral balance, the record of deposits forwarded to the StakingEscrow
collaborator `(staker, tokens, periods)`, the emitted-event history, the
reentrancy lock and the current (block) time, which the host guarantees is
non-decreasing across calls. -/
structure State where
  bidders : List Addr
  infos : List (Addr × WorkInfo)
  totalDepositedETH : Nat
  nextBidderToCheck : Nat
  ethBalance : Nat
  escrowDeposits : List (Addr × Nat × Nat)
  events : List Event
  locked : Bool
  now : Nat
deriving DecidableEq

/-- The deployment-time state: empty ledger, cursor at zero. -/
def initState : State :=
  { bidders := [], infos := [], totalDepositedETH := 0, nextBidderToCheck := 0,
    ethBalance := 0, escrowDeposits := [], events := [], locked := false, now := 0 }

/-- Error taxonomy (spec §7), plus the refund-engine preconditions the
tests assert (`noWork`, `nothingDeposited`) and the host-level artifacts
`zeroBudget` (a zero verification budget exhausts the host resource and
reverts) and `clock` (host timestamps never run backwards). -/
inductive Err where
  | phase
  | belowMinimum
  | notFound
  | alreadyClaimed
  | notClaimed
  | unfairBid
  | invalidBatch
  | reentrancy
  | zeroBudget
  | noWork
  | nothingDeposited
  | clock
deriving DecidableEq

/-! ### Entry lookup and update -/

/-- First-match lookup in the entry table, defaulting to the all-zero
entry, mirroring a Solidity `mapping(address => WorkInfo)`. -/
def lookupInfo : List (Addr × WorkInfo) → Addr → WorkInfo
  | [], _ => WorkInfo.empty
  | (b, w) :: rest, a => if a = b then w else lookupInfo rest a

/-- Write-through update of the entry table: replaces the first binding of
the key, or appends a fresh binding. -/
def setInfo : List (Addr × WorkInfo) → Addr → WorkInfo → List (Addr × WorkInfo)
  | [], a, w => [(a, w)]
  | (b, x) :: rest, a, w => if a = b then (a, w) :: rest else (b, x) :: setInfo rest a w

/-- The entry the ledger reports for an address. -/
def getInfo (s : State) (a : Addr) : WorkInfo := lookupInfo s.infos a

/-- Deposited amount of an address, directly from an entry table. -/
def depL (infos : List (Addr × WorkInfo)) (a : Addr) : Nat :=
  (lookupInfo infos a).depositedETH

/-- Deposited amount of an address in a state. -/
def dep (s : State) (a : Addr) : Nat := depL s.infos a

/-- Sum of deposited amounts over a list of addresses, against an entry
table. -/
def sumDepL (infos : List (Addr × WorkInfo)) (L : List Addr) : Nat :=
  (L.map (depL infos)).sum

/-- Sum of deposited amounts over all entries of the bidder list. -/
def sumDeposits (s : State) : Nat := sumDepL s.infos s.bidders

/-- Sum of deposited amounts over the active (not yet claimed) entries. -/
def activeSum (s : State) : Nat :=
  (s.bidders.map (fun a => if (getInfo s a).claimed then 0 else dep s a)).sum

/-- Sum of deposited amounts still held for claimed entries
(claimed-but-not-yet-released collateral). -/
def claimedSum (s : State) : Nat :=
  (s.bidders.map (fun a => if (getInfo s a).claimed then dep s a else 0)).sum

/-! ### Conversion curve (spec §4.1) -/

/-- Ceiling division on naturals. -/
def divCeil (a b : Nat) : Nat := (a + b - 1) / b

/-- Modelled from the spec: `amountToAllocation(bidAmount) = bidAmount *
allocationSupply / totalDeposited`, rounded down (spec §4.1); the query
`ethToTokens` of the contract interface. -/
def ethToTokens (P : Params) (total v : Nat) : Nat := v * P.tokenSupply / total

/-- Modelled from the spec: `allocationToWork(units) = ceil(units *
slowingRefund / boostingRefund)` (spec §4.1). -/
def allocationToWork (P : Params) (u : Nat) : Nat :=
  divCeil (u * P.slowingRefund) P.boostingRefund

/-- Modelled from the spec: `workToAmount(workUnits)`, the exact inverse
scaling of `allocationToWork`, rounded down so the ledger never
over-credits (spec §4.1). -/
def workToAmount (P : Params) (w : Nat) : Nat := w * P.boostingRefund / P.slowingRefund

/-- Work required for a given collateral amount: the composition of the
amount-to-allocation and allocation-to-work conversions (spec §6,
`convertTokensToWork ∘ convertAmountToTokens`). -/
def ethToWork (P : Params) (total v : Nat) : Nat :=
  allocationToWork P (ethToTokens P total v)

/-- Collateral amount released for a given amount of completed work: the
inverse composition (spec §6). -/
def workToETH (P : Params) (total w : Nat) : Nat :=
  workToAmount P w * total / P.tokenSupply

/-! ### Public operations -/

/-- Modelled from the spec: `bid` (spec §4.2).  Requires the reentrancy
lock to be free, the current time within `[startBidDate, endBidDate)`, and
`amount ≥ minAllowedBid` for a fresh entry (a top-up has no per-call
minimum); a bid after a prior claim is rejected.  Appends to the ordered
bidder list only on first bid and increases `totalDeposited` and the held
balance. -/
def bid (P : Params) (a : Addr) (v t : Nat) (s : State) : Except Err State :=
  if s.locked then .error .reentrancy
  else if t < s.now then .error .clock
  else if t < P.startBidDate ∨ P.endBidDate ≤ t then .error .phase
  else
    let w := getInfo s a
    if w.claimed then .error .alreadyClaimed
    else if w.depositedETH = 0 then
      if v < P.minAllowedBid then .error .belowMinimum
      else .ok { s with
        now := t
        bidders := s.bidders ++ [a]
        infos := setInfo s.infos a ⟨v, 0, false, s.bidders.length⟩
        totalDepositedETH := s.totalDepositedETH + v
        ethBalance := s.ethBalance + v
        events := s.events ++ [.bidPlaced a v] }
    else .ok { s with
      now := t
      infos := setInfo s.infos a { w with depositedETH := w.depositedETH + v }
      totalDepositedETH := s.totalDepositedETH + v
      ethBalance := s.ethBalance + v
      events := s.events ++ [.bidPlaced a v] }

/-- Modelled from the spec: removal of an entry by swap-and-truncate
(spec §3, §9): the last list element is moved into the removed entry's
slot, its `index` is updated, the list is truncated and the removed
bidder's entry is deleted. -/
def removeBidder (s : State) (a : Addr) : State :=
  let i := (getInfo s a).index
  let lastB := s.bidders.getLastD 0
  { s with
    bidders := (s.bidders.set i lastB).dropLast
    infos := setInfo (setInfo s.infos lastB { getInfo s lastB with index := i }) a
      WorkInfo.empty }

/-- Modelled from the spec: `cancelBid` (spec §4.2).  Requires the current
time within `[startBidDate, endCancellationDate)` and a non-claimed entry
with positive deposit; refunds the full deposit, removes the entry via
swap-and-truncate and decreases `totalDeposited`. -/
def cancelBid (P : Params) (a : Addr) (t : Nat) (s : State) : Except Err State :=
  if s.locked then .error .reentrancy
  else if t < s.now then .error .clock
  else if t < P.startBidDate ∨ P.endCancellationDate ≤ t then .error .phase
  else
    let w := getInfo s a
    if w.claimed then .error .alreadyClaimed
    else if w.depositedETH = 0 then .error .notFound
    else
      let s' := removeBidder s a
      .ok { s' with
        now := t
        totalDepositedETH := s.totalDepositedETH - w.depositedETH
        ethBalance := s.ethBalance - w.depositedETH
        events := s.events ++ [.canceled a w.depositedETH] }

/-- Strict ascending order of an address list (no duplicates). -/
def strictAsc : List Addr → Bool
  | [] => true
  | [_] => true
  | a :: b :: rest => decide (a < b) && strictAsc (b :: rest)

/-- Minimum deposited amount over a non-empty address list (0 for the
empty list). -/
def minDepOf (s : State) : List Addr → Nat
  | [] => 0
  | [a] => dep s a
  | a :: rest => min (dep s a) (minDepOf s rest)

/-- Sum of the deposited amounts of a list of addresses in a state. -/
def sumDepOf (s : State) (l : List Addr) : Nat := (l.map (dep s)).sum

/-- Modelled from the spec: the cap every force-refunded bidder is reduced
to — the largest common bid whose `amountToAllocation`, evaluated against
the post-refund `totalDeposited`, does not exceed
`maxAllowableLockedTokens` (spec §4.2: "reduces depositedAmount down to
exactly the amount whose amountToAllocation equals the cap").  Writing
`rest` for the deposits of everyone outside the batch, the common bid `c`
must satisfy `c * tokenSupply / (rest + n * c) ≤ max`, whose largest
integer solution is `max * rest / (tokenSupply - max * n)`. -/
def forcedCap (P : Params) (s : State) (l : List Addr) : Nat :=
  P.maxAllowableLockedTokens * (s.totalDepositedETH - sumDepOf s l) /
    (P.tokenSupply - P.maxAllowableLockedTokens * l.length)

/-- Reduce every listed bidder's deposit to the forced cap `rb`, refunding
the difference and shrinking `totalDeposited` and the held balance. -/
def applyForce (snd : Addr) (rb : Nat) : List Addr → State → State
  | [], s => s
  | a :: rest, s =>
    let w := getInfo s a
    let r := w.depositedETH - rb
    applyForce snd rb rest { s with
      infos := setInfo s.infos a { w with depositedETH := rb }
      totalDepositedETH := s.totalDepositedETH - r
      ethBalance := s.ethBalance - r
      events := s.events ++ [.forceRefunded snd a r] }

/-- Modelled from the spec: `forceRefund` (spec §4.2).  Requires the
cancellation window to be over and verification not yet complete; the
batch must be non-empty, strictly ascending by address, and every listed
bidder must hold strictly more than the derived cap (`forcedCap`) — in
particular a compliant, unknown or duplicated address fails the whole
call.  The distribution-cancellation branch the tests exercise when the
ledger holds fewer bidders than `tokenSupply / maxAllowableLockedTokens`
is not described by the spec and is not modelled; the model rejects that
regime as an invalid batch. -/
def forceRefund (P : Params) (sender : Addr) (l : List Addr) (t : Nat) (s : State) :
    Except Err State :=
  if s.locked then .error .reentrancy
  else if t < s.now then .error .clock
  else if t < P.endCancellationDate then .error .phase
  else if s.nextBidderToCheck = s.bidders.length then .error .phase
  else if l.isEmpty then .error .invalidBatch
  else if strictAsc l = false then .error .invalidBatch
  else if s.bidders.length * P.maxAllowableLockedTokens < P.tokenSupply then
    .error .invalidBatch
  else if P.tokenSupply ≤ P.maxAllowableLockedTokens * l.length then .error .invalidBatch
  else if minDepOf s l ≤ forcedCap P s l then .error .invalidBatch
  else .ok { applyForce sender (forcedCap P s l) l s with now := t }

/-- A bidder is compliant when its deposit converts to no more allocation
than the per-bidder cap (spec §4.3). -/
def compliant (P : Params) (s : State) (a : Addr) : Bool :=
  decide (ethToTokens P s.totalDepositedETH (dep s a) ≤ P.maxAllowableLockedTokens)

/-- Modelled from the spec: `verifyBiddingCorrectness(budget)` (spec
§4.3).  Requires the cancellation window to be over and a nonzero budget
(a zero budget exhausts the host resource and fails).  Scans bidders from
`nextBidderToCheck`, affording `budget / checkCost` entries this call; a
non-compliant entry in the scanned range fails the whole call with
`UnfairBid` and records no progress; otherwise the cursor advances past
every scanned entry (a call affording zero entries is a successful
no-op). -/
def verifyBiddingCorrectness (P : Params) (sender : Addr) (budget t : Nat) (s : State) :
    Except Err State :=
  if s.locked then .error .reentrancy
  else if t < s.now then .error .clock
  else if t < P.endCancellationDate then .error .phase
  else if budget = 0 then .error .zeroBudget
  else
    let start := s.nextBidderToCheck
    let stop := min s.bidders.length (start + budget / P.checkCost)
    if (List.range' start (stop - start)).all (fun i => compliant P s (s.bidders.getD i 0)) then
      if start < stop then
        .ok { s with
          now := t
          nextBidderToCheck := stop
          events := s.events ++ [.biddersChecked sender start stop] }
      else .ok { s with now := t }
    else .error .unfairBid

/-- Modelled from the spec: `claim` (spec §4.4).  Requires verification
fully complete and a non-claimed entry with positive deposit; converts the
deposit at the call-time `totalDeposited`, forwards the tokens together
with `stakingPeriods` to the StakingEscrow deposit interface, marks the
entry claimed and snapshots the escrow's completed-work counter `w0` as
the refund baseline (the tests show pre-claim completed work is not
refundable). -/
def claimOp (P : Params) (a : Addr) (w0 t : Nat) (s : State) : Except Err State :=
  if s.locked then .error .reentrancy
  else if t < s.now then .error .clock
  else if t < P.endCancellationDate then .error .phase
  else if s.nextBidderToCheck ≠ s.bidders.length then .error .phase
  else
    let w := getInfo s a
    if w.claimed then .error .alreadyClaimed
    else if w.depositedETH = 0 then .error .notFound
    else
      let tokens := ethToTokens P s.totalDepositedETH w.depositedETH
      .ok { s with
        now := t
        infos := setInfo s.infos a { w with claimed := true, completedWork := w0 }
        escrowDeposits := s.escrowDeposits ++ [(a, tokens, P.stakingPeriods)]
        events := s.events ++ [.claimedTokens a tokens] }

/-- Modelled from the spec: `refund` (spec §4.5), with the preconditions
the repository's tests assert: the caller must have claimed, must still
hold a positive deposit, and the escrow's completed-work counter `wNow`
must exceed the already-compensated baseline (the spec's "harmless no-op"
wording for a refund with no new work is contradicted by the tests, which
expect such a call to fail).  Releases the collateral equivalent of the
newly completed work, capped by the remaining deposit, and advances the
baseline by the work actually compensated. -/
def refundOp (P : Params) (a : Addr) (wNow t : Nat) (s : State) : Except Err State :=
  if s.locked then .error .reentrancy
  else if t < s.now then .error .clock
  else
    let w := getInfo s a
    if w.claimed = false then .error .notClaimed
    else if w.depositedETH = 0 then .error .nothingDeposited
    else if wNow - w.completedWork = 0 then .error .noWork
    else
      let r := min (workToETH P s.totalDepositedETH (wNow - w.completedWork)) w.depositedETH
      .ok { s with
        now := t
        infos := setInfo s.infos a { w with
          depositedETH := w.depositedETH - r
          completedWork := w.completedWork + ethToWork P s.totalDepositedETH r }
        ethBalance := s.ethBalance - r
        events := s.events ++ [.refunded a r] }

/-- A ledger call: the operation name, its arguments, and the (host)
timestamp at which it is submitted.  `refund` and `claim` carry the
escrow's completed-work reading as an oracle input. -/
inductive Op where
  | bid (a : Addr) (v t : Nat)
  | cancel (a : Addr) (t : Nat)
  | force (sender : Addr) (l : List Addr) (t : Nat)
  | verify (sender : Addr) (budget t : Nat)
  | claim (a : Addr) (w0 t : Nat)
  | refund (a : Addr) (wNow t : Nat)
deriving DecidableEq

/-- Dispatch a call to its operation. -/
def execOp (P : Params) : Op → State → Except Err State
  | .bid a v t, s => bid P a v t s
  | .cancel a t, s => cancelBid P a t s
  | .force sender l t, s => forceRefund P sender l t s
  | .verify sender budget t, s => verifyBiddingCorrectness P sender budget t s
  | .claim a w0 t, s => claimOp P a w0 t s
  | .refund a wNow t, s => refundOp P a wNow t s

/-- The observable state after a call: a failed call reverts, leaving the
pre-state. -/
def runOp (P : Params) (op : Op) (s : State) : State :=
  match execOp P op s with
  | .ok s' => s'
  | .error _ => s

/-- Execute a sequence of calls; fails as soon as one call fails. -/
def execTrace (P : Params) : List Op → State → Except Err State
  | [], s => .ok s
  | op :: ops, s =>
    match execOp P op s with
    | .ok s' => execTrace P ops s'
    | .error e => .error e

/-- The `isClaimingAvailable` query: claiming is open once the
cancellation window has ended and the verification cursor has reached the
end of the bidder list (the tests show the time condition is part of the
query: before the windows close it reports false even on an empty
ledger). -/
def isClaimingAvailable (P : Params) (s : State) : Bool :=
  decide (P.endCancellationDate ≤ s.now) && (s.nextBidderToCheck == s.bidders.length)

/-! ### Lemmas about entry lookup and update -/

theorem lookupInfo_setInfo_self (l : List (Addr × WorkInfo)) (a : Addr) (w : WorkInfo) :
    lookupInfo (setInfo l a w) a = w := by
  induction l with
  | nil => simp [setInfo, lookupInfo]
  | cons p rest ih =>
    obtain ⟨b, x⟩ := p
    by_cases h : a = b
    · simp [setInfo, lookupInfo, h]
    · simp [setInfo, lookupInfo, h, ih]

theorem lookupInfo_setInfo_ne (l : List (Addr × WorkInfo)) (a b : Addr) (w : WorkInfo)
    (h : b ≠ a) : lookupInfo (setInfo l a w) b = lookupInfo l b := by
  induction l with
  | nil => simp [setInfo, lookupInfo, h]
  | cons p rest ih =>
    obtain ⟨c, x⟩ := p
    by_cases hac : a = c
    · subst hac
      simp [setInfo, lookupInfo, h]
    · by_cases hbc : b = c <;> simp [setInfo, lookupInfo, hac, hbc, ih]

theorem mem_of_lookupInfo_ne_empty (l : List (Addr × WorkInfo)) (a : Addr)
    (h : lookupInfo l a ≠ WorkInfo.empty) : (a, lookupInfo l a) ∈ l := by
  induction l with
  | nil => simp [lookupInfo] at h
  | cons p rest ih =>
    obtain ⟨b, x⟩ := p
    by_cases hab : a = b
    · subst hab
      simp [lookupInfo]
    · simp only [lookupInfo, if_neg hab] at h ⊢
      exact List.mem_cons_of_mem _ (ih h)

theorem keys_setInfo_sub (l : List (Addr × WorkInfo)) (a : Addr) (w : WorkInfo) :
    ∀ q ∈ (setInfo l a w).map Prod.fst, q = a ∨ q ∈ l.map Prod.fst := by
  induction l with
  | nil => simp [setInfo]
  | cons p rest ih =>
    obtain ⟨b, x⟩ := p
    by_cases hab : a = b
    · subst hab
      simp [setInfo]
    · intro q hq
      simp only [setInfo, if_neg hab, List.map_cons, List.mem_cons] at hq
      rcases hq with hq | hq
      · exact Or.inr (by simp [hq])
      · rcases ih q hq with h | h
        · exact Or.inl h
        · exact Or.inr (by simp [h])

theorem keysNodup_setInfo (l : List (Addr × WorkInfo)) (a : Addr) (w : WorkInfo)
    (h : (l.map Prod.fst).Nodup) : ((setInfo l a w).map Prod.fst).Nodup := by
  induction l with
  | nil => simp [setInfo]
  | cons p rest ih =>
    obtain ⟨b, x⟩ := p
    simp only [List.map_cons, List.nodup_cons] at h
    by_cases hab : a = b
    · subst hab
      simpa [setInfo, List.nodup_cons] using h
    · simp only [setInfo, if_neg hab, List.map_cons, List.nodup_cons]
      refine ⟨?_, ih h.2⟩
      intro hb
      rcases keys_setInfo_sub rest a w b hb with h' | h'
      · exact hab h'.symm
      · exact h.1 h'

theorem mem_setInfo (l : List (Addr × WorkInfo)) (a : Addr) (w : WorkInfo)
    (hnd : (l.map Prod.fst).Nodup) (p : Addr × WorkInfo) :
    p ∈ setInfo l a w ↔ p = (a, w) ∨ (p ∈ l ∧ p.1 ≠ a) := by
  induction l with
  | nil =>
    constructor
    · intro h; simp [setInfo] at h; exact Or.inl h
    · intro h; rcases h with h | h
      · simp [setInfo, h]
      · simp at h
  | cons q rest ih =>
    obtain ⟨b, x⟩ := q
    simp only [List.map_cons, List.nodup_cons] at hnd
    by_cases hab : a = b
    · subst hab
      simp only [setInfo, ite_true, List.mem_cons]
      constructor
      · rintro (h | h)
        · exact Or.inl h
        · refine Or.inr ⟨Or.inr h, ?_⟩
          intro hpa
          exact hnd.1 (hpa ▸ List.mem_map_of_mem Prod.fst h)
      · rintro (h | ⟨h | h, hne⟩)
        · exact Or.inl h
        · exact absurd (congrArg Prod.fst h) hne
        · exact Or.inr h
    · simp only [setInfo, if_neg hab, List.mem_cons, ih hnd.2]
      constructor
      · rintro (h | h | ⟨h, hne⟩)
        · refine Or.inr ⟨Or.inl h, ?_⟩
          intro hpa
          rw [h] at hpa
          exact hab hpa.symm
        · exact Or.inl h
        · exact Or.inr ⟨Or.inr h, hne⟩
      · rintro (h | ⟨h | h, hne⟩)
        · exact Or.inr (Or.inl h)
        · exact Or.inl h
        · exact Or.inr (Or.inr ⟨h, hne⟩)

theorem claimed_lookup_false (l : List (Addr × WorkInfo)) (a : Addr)
    (h : ∀ p ∈ l, p.2.claimed = false) : (lookupInfo l a).claimed = false := by
  induction l with
  | nil => simp [lookupInfo, WorkInfo.empty]
  | cons p rest ih =>
    obtain ⟨b, x⟩ := p
    by_cases hab : a = b
    · subst hab
      simpa [lookupInfo] using h (a, x) (by simp)
    · simp only [lookupInfo, if_neg hab]
      exact ih fun q hq => h q (by simp [hq])

/-! ### Lemmas about sums over the bidder list -/

theorem sumDepL_congr (i₁ i₂ : List (Addr × WorkInfo)) (L : List Addr)
    (h : ∀ x ∈ L, depL i₁ x = depL i₂ x) : sumDepL i₁ L = sumDepL i₂ L := by
  unfold sumDepL
  induction L with
  | nil => rfl
  | cons a rest ih =>
    simp only [List.map_cons, List.sum_cons]
    rw [h a (by simp), ih fun x hx => h x (by simp [hx])]

theorem sumDepL_setInfo_not_mem (i : List (Addr × WorkInfo)) (L : List Addr) (a : Addr)
    (w : WorkInfo) (h : a ∉ L) : sumDepL (setInfo i a w) L = sumDepL i L := by
  refine sumDepL_congr _ _ _ fun x hx => ?_
  unfold depL
  rw [lookupInfo_setInfo_ne]
  exact fun hxa => h (hxa ▸ hx)

theorem sumDepL_append (i : List (Addr × WorkInfo)) (L₁ L₂ : List Addr) :
    sumDepL i (L₁ ++ L₂) = sumDepL i L₁ + sumDepL i L₂ := by
  simp [sumDepL]

theorem sumDepL_update_mem (i : List (Addr × WorkInfo)) (L : List Addr) (a : Addr)
    (w : WorkInfo) (hnd : L.Nodup) (ha : a ∈ L) :
    sumDepL (setInfo i a w) L + depL i a = sumDepL i L + w.depositedETH := by
  induction L with
  | nil => simp at ha
  | cons b rest ih =>
    simp only [List.nodup_cons] at hnd
    rcases List.mem_cons.mp ha with hab | ha'
    · subst hab
      have h1 : sumDepL (setInfo i a w) rest = sumDepL i rest :=
        sumDepL_setInfo_not_mem _ _ _ _ hnd.1
      simp only [sumDepL, List.map_cons, List.sum_cons] at h1 ⊢
      have h2 : depL (setInfo i a w) a = w.depositedETH := by
        unfold depL; rw [lookupInfo_setInfo_self]
      rw [h2, h1]
      omega
    · have hba : b ≠ a := fun hba => hnd.1 (hba ▸ ha')
      have h2 : depL (setInfo i a w) b = depL i b := by
        unfold depL; rw [lookupInfo_setInfo_ne _ _ _ _ hba]
      simp only [sumDepL, List.map_cons, List.sum_cons] at ih ⊢
      have := ih hnd.2 ha'
      rw [h2]
      omega

theorem depL_le_sumDepL (i : List (Addr × WorkInfo)) (L : List Addr) (a : Addr)
    (ha : a ∈ L) : depL i a ≤ sumDepL i L := by
  induction L with
  | nil => simp at ha
  | cons b rest ih =>
    simp only [sumDepL, List.map_cons, List.sum_cons]
    rcases List.mem_cons.mp ha with hab | ha'
    · subst hab; omega
    · have := ih ha'
      simp only [sumDepL] at this
      omega

/-! ### List surgery lemmas for swap-and-truncate removal -/

theorem getD_set_self (L : List Addr) (i : Nat) (b : Addr) (h : i < L.length) :
    (L.set i b).getD i 0 = b := by
  induction L generalizing i with
  | nil => simp at h
  | cons x rest ih =>
    cases i with
    | zero => simp [List.set]
    | succ j =>
      simp only [List.set, List.getD_cons_succ]
      exact ih j (by simpa using h)

theorem getD_set_ne (L : List Addr) (i j : Nat) (b : Addr) (h : j ≠ i) :
    (L.set i b).getD j 0 = L.getD j 0 := by
  induction L generalizing i j with
  | nil => simp [List.set]
  | cons x rest ih =>
    cases i with
    | zero =>
      cases j with
      | zero => exact absurd rfl h
      | succ k => simp [List.set]
    | succ i' =>
      cases j with
      | zero => simp [List.set]
      | succ k =>
        simp only [List.set, List.getD_cons_succ]
        exact ih i' k fun hk => h (by omega)

theorem set_getD_self_eq (L : List Addr) (i : Nat) (h : i < L.length) :
    L.set i (L.getD i 0) = L := by
  induction L generalizing i with
  | nil => simp
  | cons x rest ih =>
    cases i with
    | zero => simp [List.set]
    | succ j =>
      simp only [List.set, List.getD_cons_succ, List.cons.injEq, true_and]
      exact ih j (by simpa using h)

theorem getD_mem (L : List Addr) (i : Nat) (h : i < L.length) : L.getD i 0 ∈ L := by
  induction L generalizing i with
  | nil => simp at h
  | cons x rest ih =>
    cases i with
    | zero => simp
    | succ j =>
      simp only [List.getD_cons_succ, List.mem_cons]
      exact Or.inr (ih j (by simpa using h))

theorem mem_getD (L : List Addr) (a : Addr) (ha : a ∈ L) :
    ∃ i, i < L.length ∧ L.getD i 0 = a := by
  induction L with
  | nil => simp at ha
  | cons x rest ih =>
    rcases List.mem_cons.mp ha with h | h
    · exact ⟨0, by simp, by simp [h.symm]⟩
    · obtain ⟨i, hi, hEq⟩ := ih h
      exact ⟨i + 1, by simpa using hi, by simpa using hEq⟩

theorem map_sum_set (L : List Addr) (f : Addr → Nat) (j : Nat) (b : Addr)
    (h : j < L.length) :
    ((L.set j b).map f).sum + f (L.getD j 0) = (L.map f).sum + f b := by
  induction L generalizing j with
  | nil => simp at h
  | cons x rest ih =>
    cases j with
    | zero => simp [List.set]; omega
    | succ k =>
      simp only [List.set, List.map_cons, List.sum_cons, List.getD_cons_succ]
      have := ih k (by simpa using h)
      omega

theorem dropLast_map_sum (L : List Addr) (f : Addr → Nat) (h : L ≠ []) :
    ((L.dropLast).map f).sum + f (L.getLastD 0) = (L.map f).sum := by
  conv_rhs => rw [← List.dropLast_append_getLast h]
  rw [List.getLastD_eq_getLast? ]
  rw [List.getLast?_eq_getLast L h]
  simp

theorem set_dropLast_comm (L : List Addr) (i : Nat) (b : Addr) (h : i < L.length - 1) :
    (L.set i b).dropLast = L.dropLast.set i b := by
  induction L generalizing i with
  | nil => simp
  | cons x rest ih =>
    cases i with
    | zero =>
      cases rest with
      | nil => simp at h
      | cons y ys => simp [List.set, List.dropLast]
    | succ j =>
      cases rest with
      | nil => simp at h
      | cons y ys =>
        simp only [List.set, List.dropLast_cons₂]
        have hj : j < (y :: ys).length - 1 := by simpa using h
        have := ih j hj
        simp only [List.set] at this ⊢
        rw [← this]
        cases hset : (y :: ys).set j b with
        | nil => exact absurd (congrArg List.length hset) (by simp)
        | cons z zs => simp [List.dropLast_cons₂]

theorem nodup_set_fresh (L : List Addr) (i : Nat) (b : Addr) (hnd : L.Nodup)
    (hb : b ∉ L) : (L.set i b).Nodup := by
  induction L generalizing i with
  | nil => simp
  | cons x rest ih =>
    simp only [List.nodup_cons] at hnd
    simp only [List.mem_cons, not_or] at hb
    cases i with
    | zero =>
      simp only [List.set, List.nodup_cons]
      exact ⟨hb.2, hnd.2⟩
    | succ j =>
      simp only [List.set, List.nodup_cons]
      refine ⟨fun hx => ?_, ih j hnd.2 hb.2⟩
      rcases List.mem_or_eq_of_mem_set hx with h | h
      · exact hnd.1 h
      · exact hb.1 h.symm

theorem mem_set_of_mem_ne (L : List Addr) (i : Nat) (b x : Addr) (hx : x ∈ L)
    (hne : x ≠ L.getD i 0) : x ∈ L.set i b := by
  obtain ⟨j, hj, hEq⟩ := mem_getD L x hx
  have hji : j ≠ i := fun h => hne (h ▸ hEq.symm)
  have : (L.set i b).getD j 0 = x := by rw [getD_set_ne _ _ _ _ hji]; exact hEq
  exact this ▸ getD_mem _ j (by simpa using hj)

theorem getLastD_not_mem_dropLast (L : List Addr) (hnd : L.Nodup) (h : L ≠ []) :
    L.getLastD 0 ∉ L.dropLast := by
  intro hmem
  have hsplit := List.dropLast_append_getLast h
  rw [← hsplit] at hnd
  rw [List.nodup_append] at hnd
  have := hnd.2.2
  rw [List.getLastD_eq_getLast?, List.getLast?_eq_getLast L h] at hmem
  exact absurd (by simp : L.getLast h ∈ [L.getLast h]) (hnd.2.2 hmem)

theorem getLastD_mem (L : List Addr) (h : L ≠ []) : L.getLastD 0 ∈ L := by
  rw [List.getLastD_eq_getLast?, List.getLast?_eq_getLast L h]
  exact List.getLast_mem h

theorem getD_dropLast (L : List Addr) (j : Nat) (h : j < L.length - 1) :
    L.dropLast.getD j 0 = L.getD j 0 := by
  induction L generalizing j with
  | nil => simp
  | cons x rest ih =>
    cases rest with
    | nil => simp at h
    | cons y ys =>
      cases j with
      | zero => simp [List.dropLast_cons₂]
      | succ k =>
        simp only [List.dropLast_cons₂, List.getD_cons_succ]
        exact ih k (by simpa using h)

theorem getD_getLastD (L : List Addr) (h : L ≠ []) :
    L.getD (L.length - 1) 0 = L.getLastD 0 := by
  induction L with
  | nil => simp at h
  | cons x rest ih =>
    cases rest with
    | nil => simp
    | cons y ys =>
      have := ih (by simp)
      simpa using this

theorem getD_append_left (L₁ L₂ : List Addr) (i : Nat) (h : i < L₁.length) :
    (L₁ ++ L₂).getD i 0 = L₁.getD i 0 := by
  induction L₁ generalizing i with
  | nil => simp at h
  | cons x rest ih =>
    cases i with
    | zero => simp
    | succ j =>
      simp only [List.cons_append, List.getD_cons_succ]
      exact ih j (by simpa using h)

theorem getD_append_at (L : List Addr) (a : Addr) : (L ++ [a]).getD L.length 0 = a := by
  induction L with
  | nil => simp
  | cons x rest ih => simp [ih]

theorem mem_dropLast_of_mem_ne (L : List Addr) (x : Addr) (hx : x ∈ L)
    (hne : x ≠ L.getLastD 0) : x ∈ L.dropLast := by
  have hL : L ≠ [] := by rintro rfl; simp at hx
  have hsplit := List.dropLast_append_getLast hL
  rw [← hsplit] at hx
  rcases List.mem_append.mp hx with h | h
  · exact h
  · exfalso
    apply hne
    rw [List.getLastD_eq_getLast?, List.getLast?_eq_getLast L hL]
    simpa using h

/-! ### The ledger bookkeeping invariant

`Acct` is the accounting invariant of the bid ledger before any claim has
happened (spec §3): no duplicate entries, `index` fields matching list
positions, positive deposits for listed bidders, entries only for listed
bidders, and both `totalDeposited` and the held balance equal to the sum
of all deposits. -/

structure Acct (s : State) : Prop where
  keys : (s.infos.map Prod.fst).Nodup
  nodup : s.bidders.Nodup
  idx : ∀ i < s.bidders.length, (getInfo s (s.bidders.getD i 0)).index = i
  pos : ∀ a ∈ s.bidders, 0 < dep s a
  memi : ∀ p ∈ s.infos, p.1 ∈ s.bidders ∨ p.2 = WorkInfo.empty
  nocl : ∀ p ∈ s.infos, p.2.claimed = false
  total : s.totalDepositedETH = sumDeposits s
  bal : s.ethBalance = sumDeposits s

theorem Acct.mem_of_dep_pos {s : State} {a : Addr} (hA : Acct s) (h : 0 < dep s a) :
    a ∈ s.bidders := by
  have hne : lookupInfo s.infos a ≠ WorkInfo.empty := by
    intro he
    unfold dep depL at h
    rw [he] at h
    simp [WorkInfo.empty] at h
  rcases hA.memi _ (mem_of_lookupInfo_ne_empty s.infos a hne) with h' | h'
  · exact h'
  · exact absurd h' hne

theorem Acct.not_mem_dep_zero {s : State} {a : Addr} (hA : Acct s) (h : a ∉ s.bidders) :
    dep s a = 0 := by
  by_contra hd
  exact h (hA.mem_of_dep_pos (Nat.pos_of_ne_zero hd))

theorem Acct.claimed_false (s : State) (a : Addr) (hA : Acct s) :
    (getInfo s a).claimed = false :=
  claimed_lookup_false s.infos a hA.nocl

theorem Acct.indexInv {s : State} {a : Addr} (hA : Acct s) (ha : a ∈ s.bidders) :
    (getInfo s a).index < s.bidders.length ∧
      s.bidders.getD (getInfo s a).index 0 = a := by
  obtain ⟨j, hj, hEq⟩ := mem_getD s.bidders a ha
  have := hA.idx j hj
  rw [hEq] at this
  rw [this]
  exact ⟨hj, hEq⟩

/-! ### Preservation of the invariant by bid, cancelBid and forceRefund -/

theorem acct_bid (P : Params) (a : Addr) (v t : Nat) (s s' : State)
    (hmin : 0 < P.minAllowedBid) (hA : Acct s) (h : bid P a v t s = .ok s') : Acct s' := by
  simp only [bid] at h
  split at h
  · simp at h
  split at h
  · simp at h
  split at h
  · simp at h
  split at h
  · simp at h
  split at h
  -- fresh entry
  · split at h
    · simp at h
    rename_i hlock hclock hphase hcl hdep hv
    injection h with h
    subst h
    unfold getInfo at hdep
    have hnotmem : a ∉ s.bidders := by
      intro hmem
      have := hA.pos a hmem
      unfold dep depL at this
      omega
    have hvpos : 0 < v := by omega
    refine ⟨?_, ?_, ?_, ?_, ?_, ?_, ?_, ?_⟩
    · exact keysNodup_setInfo _ _ _ hA.keys
    · simp only
      rw [List.nodup_append]
      refine ⟨hA.nodup, by simp, ?_⟩
      intro x hx hx'
      simp only [List.mem_singleton] at hx'
      exact hnotmem (hx' ▸ hx)
    · intro i hi
      simp only [List.length_append, List.length_singleton] at hi
      simp only [getInfo]
      rcases Nat.lt_or_ge i s.bidders.length with hlt | hge
      · rw [getD_append_left _ _ _ hlt]
        have hne : s.bidders.getD i 0 ≠ a := fun hEq => hnotmem (hEq ▸ getD_mem _ _ hlt)
        rw [lookupInfo_setInfo_ne _ _ _ _ hne]
        exact hA.idx i hlt
      · have hieq : i = s.bidders.length := by omega
        subst hieq
        rw [getD_append_at]
        rw [lookupInfo_setInfo_self]
    · intro b hb
      simp only [List.mem_append, List.mem_singleton] at hb
      unfold dep depL
      simp only
      rcases hb with hb | hb
      · have hne : b ≠ a := fun hEq => hnotmem (hEq ▸ hb)
        rw [lookupInfo_setInfo_ne _ _ _ _ hne]
        exact hA.pos b hb
      · subst hb
        rw [lookupInfo_setInfo_self]
        exact hvpos
    · intro p hp
      simp only at hp ⊢
      rcases (mem_setInfo _ _ _ hA.keys p).mp hp with hp | ⟨hp, hne⟩
      · subst hp
        simp
      · rcases hA.memi p hp with h' | h'
        · exact Or.inl (by simp [h'])
        · exact Or.inr h'
    · intro p hp
      simp only at hp
      rcases (mem_setInfo _ _ _ hA.keys p).mp hp with hp | ⟨hp, _⟩
      · subst hp; rfl
      · exact hA.nocl p hp
    · show s.totalDepositedETH + v = sumDeposits _
      unfold sumDeposits
      simp only
      rw [sumDepL_append]
      have h1 : sumDepL (setInfo s.infos a ⟨v, 0, false, s.bidders.length⟩) s.bidders
          = sumDepL s.infos s.bidders := sumDepL_setInfo_not_mem _ _ _ _ hnotmem
      have h2 : sumDepL (setInfo s.infos a ⟨v, 0, false, s.bidders.length⟩) [a] = v := by
        unfold sumDepL depL
        rw [List.map_singleton, List.sum_singleton, lookupInfo_setInfo_self]
      have ht := hA.total
      unfold sumDeposits at ht
      rw [h1, h2]
      omega
    · show s.ethBalance + v = sumDeposits _
      unfold sumDeposits
      simp only
      rw [sumDepL_append]
      have h1 : sumDepL (setInfo s.infos a ⟨v, 0, false, s.bidders.length⟩) s.bidders
          = sumDepL s.infos s.bidders := sumDepL_setInfo_not_mem _ _ _ _ hnotmem
      have h2 : sumDepL (setInfo s.infos a ⟨v, 0, false, s.bidders.length⟩) [a] = v := by
        unfold sumDepL depL
        rw [List.map_singleton, List.sum_singleton, lookupInfo_setInfo_self]
      have ht := hA.bal
      unfold sumDeposits at ht
      rw [h1, h2]
      omega
  -- top-up
  · rename_i hlock hclock hphase hcl hdep
    injection h with h
    subst h
    simp only [getInfo] at hdep hcl ⊢
    have hdpos : 0 < dep s a := by
      unfold dep depL
      omega
    have hamem : a ∈ s.bidders := hA.mem_of_dep_pos hdpos
    have hupd := sumDepL_update_mem s.infos s.bidders a
      { lookupInfo s.infos a with depositedETH := (lookupInfo s.infos a).depositedETH + v }
      hA.nodup hamem
    simp only at hupd
    have hdle : depL s.infos a ≤ sumDepL s.infos s.bidders := depL_le_sumDepL _ _ _ hamem
    unfold depL at hupd hdle
    refine ⟨?_, ?_, ?_, ?_, ?_, ?_, ?_, ?_⟩
    · exact keysNodup_setInfo _ _ _ hA.keys
    · exact hA.nodup
    · intro i hi
      simp only at hi ⊢
      unfold getInfo
      simp only
      by_cases hia : s.bidders.getD i 0 = a
      · rw [hia, lookupInfo_setInfo_self]
        have := hA.idx i hi
        unfold getInfo at this
        rw [hia] at this
        exact this
      · rw [lookupInfo_setInfo_ne _ _ _ _ hia]
        exact hA.idx i hi
    · intro b hb
      simp only at hb ⊢
      unfold dep depL
      simp only
      by_cases hba : b = a
      · subst hba
        rw [lookupInfo_setInfo_self]
        simp only
        have := hA.pos b hb
        unfold dep depL at this
        omega
      · rw [lookupInfo_setInfo_ne _ _ _ _ hba]
        exact hA.pos b hb
    · intro p hp
      simp only at hp ⊢
      rcases (mem_setInfo _ _ _ hA.keys p).mp hp with hp | ⟨hp, _⟩
      · subst hp
        exact Or.inl hamem
      · rcases hA.memi p hp with h' | h'
        · exact Or.inl h'
        · exact Or.inr h'
    · intro p hp
      simp only at hp
      rcases (mem_setInfo _ _ _ hA.keys p).mp hp with hp | ⟨hp, _⟩
      · subst hp
        simp only
        have := hA.claimed_false s a
        unfold getInfo at this
        exact this
      · exact hA.nocl p hp
    · show s.totalDepositedETH + v = sumDeposits _
      unfold sumDeposits
      simp only
      have ht := hA.total
      unfold sumDeposits at ht
      omega
    · show s.ethBalance + v = sumDeposits _
      unfold sumDeposits
      simp only
      have ht := hA.bal
      unfold sumDeposits at ht
      omega

theorem acct_cancel (P : Params) (a : Addr) (t : Nat) (s s' : State)
    (hA : Acct s) (h : cancelBid P a t s = .ok s') : Acct s' := by
  simp only [cancelBid, removeBidder] at h
  split at h
  · simp at h
  split at h
  · simp at h
  split at h
  · simp at h
  split at h
  · simp at h
  split at h
  · simp at h
  rename_i hlock hclock hphase hcl hdep
  injection h with h
  subst h
  simp only [getInfo] at hcl hdep ⊢
  have hdpos : 0 < dep s a := by
    unfold dep depL
    omega
  have hamem : a ∈ s.bidders := hA.mem_of_dep_pos hdpos
  obtain ⟨hilt, hia⟩ := hA.indexInv hamem
  unfold getInfo at hilt hia
  have hLne : s.bidders ≠ [] := by
    rintro hnil
    rw [hnil] at hamem
    simp at hamem
  -- abbreviations
  set d := (lookupInfo s.infos a).depositedETH with hd
  set i := (lookupInfo s.infos a).index with hi
  set lastB := s.bidders.getLastD 0 with hlastB
  set wL : WorkInfo := { lookupInfo s.infos lastB with index := i } with hwL
  set I' := setInfo (setInfo s.infos lastB wL) a WorkInfo.empty with hI'
  set R := (s.bidders.set i lastB).dropLast with hR
  have hkeysJ : ((setInfo s.infos lastB wL).map Prod.fst).Nodup :=
    keysNodup_setInfo _ _ _ hA.keys
  have hkeysI : (I'.map Prod.fst).Nodup := keysNodup_setInfo _ _ _ hkeysJ
  -- pointwise description of the updated entry table
  have hIa : lookupInfo I' a = WorkInfo.empty := by
    rw [hI', lookupInfo_setInfo_self]
  have hIlast : lastB ≠ a → lookupInfo I' lastB = wL := by
    intro hne
    rw [hI', lookupInfo_setInfo_ne _ _ _ _ hne, lookupInfo_setInfo_self]
  have hIne : ∀ x, x ≠ a → x ≠ lastB → lookupInfo I' x = lookupInfo s.infos x := by
    intro x hxa hxl
    rw [hI', lookupInfo_setInfo_ne _ _ _ _ hxa, lookupInfo_setInfo_ne _ _ _ _ hxl]
  have hdepI : ∀ x, x ≠ a → depL I' x = depL s.infos x := by
    intro x hxa
    by_cases hxl : x = lastB
    · subst hxl
      unfold depL
      rw [hIlast hxa, hwL]
    · unfold depL
      rw [hIne x hxa hxl]
  have hclI : ∀ x, (lookupInfo I' x).claimed = false := by
    intro x
    by_cases hxa : x = a
    · subst hxa
      rw [hIa]
      rfl
    · by_cases hxl : x = lastB
      · subst hxl
        rw [hIlast hxa, hwL]
        exact claimed_lookup_false _ _ hA.nocl
      · rw [hIne x hxa hxl]
        exact claimed_lookup_false _ _ hA.nocl
  have hmemI : ∀ p, p ∈ I' → p = (a, WorkInfo.empty) ∨ (p = (lastB, wL) ∧ lastB ≠ a) ∨
      (p ∈ s.infos ∧ p.1 ≠ a ∧ p.1 ≠ lastB) := by
    intro p hp
    rw [hI'] at hp
    rcases (mem_setInfo _ _ _ hkeysJ p).mp hp with hp | ⟨hp, hpa⟩
    · exact Or.inl hp
    · rcases (mem_setInfo _ _ _ hA.keys p).mp hp with hp | ⟨hp, hpl⟩
      · refine Or.inr (Or.inl ⟨hp, ?_⟩)
        intro hEq
        apply hpa
        rw [hp, hEq]
      · exact Or.inr (Or.inr ⟨hp, hpa, hpl⟩)
  have hRlen : R.length = s.bidders.length - 1 := by
    rw [hR, List.length_dropLast, List.length_set]
  have hgetDlast : s.bidders.getD (s.bidders.length - 1) 0 = lastB := getD_getLastD _ hLne
  by_cases hcase : i = s.bidders.length - 1
  -- Case A: the entry is the last one; the swap is trivial.
  · have hlasta : lastB = a := by
      rw [← hgetDlast, ← hcase, hia]
    have hRA : R = s.bidders.dropLast := by
      rw [hR]
      congr 1
      rw [hlasta]
      conv_lhs => rw [show a = s.bidders.getD i 0 from hia.symm]
      exact set_getD_self_eq _ _ hilt
    have hmemRL : ∀ x, x ∈ R → x ∈ s.bidders ∧ x ≠ a := by
      intro x hx
      rw [hRA] at hx
      refine ⟨(List.dropLast_sublist s.bidders).subset hx, ?_⟩
      intro hxa
      subst hxa
      rw [← hlasta] at hx
      exact getLastD_not_mem_dropLast _ hA.nodup hLne hx
    have hsum : sumDepL I' R + d = sumDepL s.infos s.bidders := by
      have hcongr : sumDepL I' R = sumDepL s.infos R := by
        refine sumDepL_congr _ _ _ fun x hx => ?_
        exact hdepI x (hmemRL x hx).2
      have hdrop := dropLast_map_sum s.bidders (depL s.infos) hLne
      rw [show s.bidders.getLastD 0 = lastB from hlastB.symm, hlasta] at hdrop
      unfold sumDepL at hcongr ⊢
      rw [hcongr, hRA]
      unfold depL at hdrop
      rw [show (lookupInfo s.infos a).depositedETH = d from hd.symm] at hdrop
      exact hdrop
    have hdle : d ≤ sumDepL s.infos s.bidders := by
      have := depL_le_sumDepL s.infos s.bidders a hamem
      unfold depL at this
      rw [show (lookupInfo s.infos a).depositedETH = d from hd.symm] at this
      exact this
    refine ⟨?_, ?_, ?_, ?_, ?_, ?_, ?_, ?_⟩
    · exact hkeysI
    · show R.Nodup
      rw [hRA]
      exact hA.nodup.sublist (List.dropLast_sublist _)
    · intro j hj
      show (lookupInfo I' (R.getD j 0)).index = j
      have hj2 : j < R.length := hj
      rw [hRlen] at hj2
      have hgd : R.getD j 0 = s.bidders.getD j 0 := by
        rw [hRA]
        exact getD_dropLast _ _ hj2
      have hjn : j < s.bidders.length := by omega
      have hidxj := hA.idx j hjn
      unfold getInfo at hidxj
      rw [hgd]
      have hxa : s.bidders.getD j 0 ≠ a := by
        intro hEq
        rw [hEq] at hidxj
        rw [show (lookupInfo s.infos a).index = i from hi.symm] at hidxj
        omega
      rw [hIne _ hxa (by rw [hlasta]; exact hxa)]
      exact hidxj

    · intro x hx
      show 0 < (lookupInfo I' x).depositedETH
      obtain ⟨hxL, hxa⟩ := hmemRL x hx
      have := hdepI x hxa
      unfold depL at this
      rw [this]
      exact hA.pos x hxL
    · intro p hp
      show p.1 ∈ R ∨ p.2 = WorkInfo.empty
      rcases hmemI p hp with hp | ⟨hp, hne⟩ | ⟨hp, hpa, hpl⟩
      · exact Or.inr (by rw [hp])
      · exact absurd hlasta hne
      · rcases hA.memi p hp with h' | h'
        · refine Or.inl ?_
          rw [hRA]
          refine mem_dropLast_of_mem_ne _ _ h' ?_
          rw [show s.bidders.getLastD 0 = lastB from hlastB.symm, hlasta]
          exact hpa
        · exact Or.inr h'
    · intro p hp
      show p.2.claimed = false
      rcases hmemI p hp with hp | ⟨hp, _⟩ | ⟨hp, _, _⟩
      · rw [hp]; rfl
      · rw [hp, hwL]
        exact claimed_lookup_false _ _ hA.nocl
      · exact hA.nocl p hp
    · show s.totalDepositedETH - d = sumDepL I' R
      have ht := hA.total
      unfold sumDeposits at ht
      omega
    · show s.ethBalance - d = sumDepL I' R
      have ht := hA.bal
      unfold sumDeposits at ht
      omega
  -- Case B: the entry is not the last one; the last entry is swapped in.
  · have hilt' : i < s.bidders.length - 1 := by omega
    have hlastne : lastB ≠ a := by
      intro hEq
      have hnpos : 0 < s.bidders.length := List.length_pos.mpr hLne
      have hidxl := hA.idx (s.bidders.length - 1) (by omega)
      unfold getInfo at hidxl
      rw [hgetDlast, hEq] at hidxl
      rw [show (lookupInfo s.infos a).index = i from hi.symm] at hidxl
      omega
    have hlmem : lastB ∈ s.bidders := by
      rw [hlastB]
      exact getLastD_mem _ hLne
    have hRB : R = s.bidders.dropLast.set i lastB := by
      rw [hR]
      exact set_dropLast_comm _ _ _ hilt'
    have hMlen : s.bidders.dropLast.length = s.bidders.length - 1 :=
      List.length_dropLast _
    have hlastnM : lastB ∉ s.bidders.dropLast := by
      rw [hlastB]
      exact getLastD_not_mem_dropLast _ hA.nodup hLne
    have hgdMi : s.bidders.dropLast.getD i 0 = a := by
      rw [getD_dropLast _ _ hilt', hia]
    have hgdR : ∀ j, j < s.bidders.length - 1 → j ≠ i →
        R.getD j 0 = s.bidders.getD j 0 := by
      intro j hj hji
      rw [hRB, getD_set_ne _ _ _ _ hji, getD_dropLast _ _ hj]
    have hgdRi : R.getD i 0 = lastB := by
      rw [hRB]
      exact getD_set_self _ _ _ (by omega)
    have hmemR : ∀ x, x ∈ R → x = lastB ∨ (x ∈ s.bidders ∧ x ≠ a ∧ x ≠ lastB) := by
      intro x hx
      obtain ⟨j, hj, hEq⟩ := mem_getD R x hx
      rw [hRlen] at hj
      by_cases hji : j = i
      · subst hji
        rw [hgdRi] at hEq
        exact Or.inl hEq.symm
      · rw [hgdR j hj hji] at hEq
        have hjn : j < s.bidders.length := by omega
        have hidxj := hA.idx j hjn
        unfold getInfo at hidxj
        rw [hEq] at hidxj
        refine Or.inr ⟨hEq ▸ getD_mem _ _ hjn, ?_, ?_⟩
        · intro hEq2
          rw [hEq2] at hidxj
          rw [show (lookupInfo s.infos a).index = i from hi.symm] at hidxj
          omega
        · intro hEq2
          have hidxl := hA.idx (s.bidders.length - 1) (by omega)
          unfold getInfo at hidxl
          rw [hgetDlast] at hidxl
          rw [hEq2] at hidxj
          rw [hidxl] at hidxj
          omega
    have hanotR : a ∉ R := by
      intro haR
      rcases hmemR a haR with h' | ⟨_, h', _⟩
      · exact hlastne h'.symm
      · exact h' rfl
    have hsum : sumDepL I' R + d = sumDepL s.infos s.bidders := by
      have hcongr : sumDepL I' R = sumDepL s.infos R := by
        refine sumDepL_congr _ _ _ fun x hx => ?_
        refine hdepI x ?_
        intro hEq
        exact hanotR (hEq ▸ hx)
      have hset := map_sum_set s.bidders.dropLast (depL s.infos) i lastB (by omega)
      rw [hgdMi] at hset
      have hdrop := dropLast_map_sum s.bidders (depL s.infos) hLne
      rw [show s.bidders.getLastD 0 = lastB from hlastB.symm] at hdrop
      have hda : depL s.infos a = d := rfl
      unfold sumDepL at hcongr ⊢
      rw [hcongr, hRB]
      omega
    have hdle : d ≤ sumDepL s.infos s.bidders := by
      have := depL_le_sumDepL s.infos s.bidders a hamem
      unfold depL at this
      rw [show (lookupInfo s.infos a).depositedETH = d from hd.symm] at this
      exact this
    refine ⟨?_, ?_, ?_, ?_, ?_, ?_, ?_, ?_⟩
    · exact hkeysI
    · show R.Nodup
      rw [hRB]
      exact nodup_set_fresh _ _ _ (hA.nodup.sublist (List.dropLast_sublist _)) hlastnM
    · intro j hj
      show (lookupInfo I' (R.getD j 0)).index = j
      have hj2 : j < R.length := hj
      rw [hRlen] at hj2
      by_cases hji : j = i
      · subst hji
        rw [hgdRi, hIlast hlastne, hwL]
      · rw [hgdR j hj2 hji]
        have hjn : j < s.bidders.length := by omega
        have hidxj := hA.idx j hjn
        unfold getInfo at hidxj
        have hxa : s.bidders.getD j 0 ≠ a := by
          intro hEq
          rw [hEq] at hidxj
          rw [show (lookupInfo s.infos a).index = i from hi.symm] at hidxj
          omega
        have hxl : s.bidders.getD j 0 ≠ lastB := by
          intro hEq
          have hidxl := hA.idx (s.bidders.length - 1) (by omega)
          unfold getInfo at hidxl
          rw [hgetDlast] at hidxl
          rw [hEq, hidxl] at hidxj
          omega
        rw [hIne _ hxa hxl]
        exact hidxj
    · intro x hx
      show 0 < (lookupInfo I' x).depositedETH
      rcases hmemR x hx with hxl | ⟨hxL, hxa, _⟩
      · have hxa : x ≠ a := by
          rw [hxl]
          exact hlastne
        have hxd := hdepI x hxa
        unfold depL at hxd
        have hp2 := hA.pos lastB hlmem
        unfold dep depL at hp2
        rw [hxd, hxl]
        exact hp2
      · have hxd := hdepI x hxa
        unfold depL at hxd
        have hp2 := hA.pos x hxL
        unfold dep depL at hp2
        rw [hxd]
        exact hp2
    · intro p hp
      show p.1 ∈ R ∨ p.2 = WorkInfo.empty
      rcases hmemI p hp with hp | ⟨hp, _⟩ | ⟨hp, hpa, hpl⟩
      · exact Or.inr (by rw [hp])
      · refine Or.inl ?_
        rw [hp]
        exact hgdRi ▸ getD_mem R i (by omega)
      · rcases hA.memi p hp with h' | h'
        · refine Or.inl ?_
          obtain ⟨j, hjn, hEq⟩ := mem_getD s.bidders p.1 h'
          have hidxj := hA.idx j hjn
          unfold getInfo at hidxj
          rw [hEq] at hidxj
          have hji : j ≠ i := by
            intro hEq2
            apply hpa
            rw [← hia, ← hEq2, hEq]
          have hjl : j ≠ s.bidders.length - 1 := by
            intro hEq2
            apply hpl
            rw [← hgetDlast, ← hEq2, hEq]
          have hjlt : j < s.bidders.length - 1 := by omega
          rw [← hgdR j hjlt hji] at hEq
          exact hEq ▸ getD_mem R j (by omega)
        · exact Or.inr h'
    · intro p hp
      show p.2.claimed = false
      rcases hmemI p hp with hp | ⟨hp, _⟩ | ⟨hp, _, _⟩
      · rw [hp]; rfl
      · rw [hp, hwL]
        exact claimed_lookup_false _ _ hA.nocl
      · exact hA.nocl p hp
    · show s.totalDepositedETH - d = sumDepL I' R
      have ht := hA.total
      unfold sumDeposits at ht
      omega
    · show s.ethBalance - d = sumDepL I' R
      have ht := hA.bal
      unfold sumDeposits at ht
      omega

/-- A state update that only rewrites one listed bidder's deposit (keeping
its claim flag and index) and shifts `totalDeposited` and the balance by
the same difference preserves the accounting invariant. -/
theorem acct_update (s s' : State) (a : Addr) (d' : Nat)
    (hamem : a ∈ s.bidders) (hd : 0 < d') (hA : Acct s)
    (hb : s'.bidders = s.bidders)
    (hinfos : s'.infos = setInfo s.infos a
      ⟨d', (lookupInfo s.infos a).completedWork, (lookupInfo s.infos a).claimed,
        (lookupInfo s.infos a).index⟩)
    (htot : s'.totalDepositedETH + depL s.infos a = s.totalDepositedETH + d')
    (hbal : s'.ethBalance + depL s.infos a = s.ethBalance + d') : Acct s' := by
  have hupd := sumDepL_update_mem s.infos s.bidders a
    ⟨d', (lookupInfo s.infos a).completedWork, (lookupInfo s.infos a).claimed,
      (lookupInfo s.infos a).index⟩ hA.nodup hamem
  simp only at hupd
  refine ⟨?_, ?_, ?_, ?_, ?_, ?_, ?_, ?_⟩
  · rw [hinfos]
    exact keysNodup_setInfo _ _ _ hA.keys
  · rw [hb]
    exact hA.nodup
  · intro i hi
    rw [hb] at hi ⊢
    unfold getInfo
    rw [hinfos]
    by_cases hia : s.bidders.getD i 0 = a
    · rw [hia, lookupInfo_setInfo_self]
      have := hA.idx i hi
      unfold getInfo at this
      rw [hia] at this
      exact this
    · rw [lookupInfo_setInfo_ne _ _ _ _ hia]
      exact hA.idx i hi
  · intro b hb'
    rw [hb] at hb'
    unfold dep depL
    rw [hinfos]
    by_cases hba : b = a
    · subst hba
      rw [lookupInfo_setInfo_self]
      exact hd
    · rw [lookupInfo_setInfo_ne _ _ _ _ hba]
      exact hA.pos b hb'
  · intro p hp
    rw [hinfos] at hp
    rw [hb]
    rcases (mem_setInfo _ _ _ hA.keys p).mp hp with hp | ⟨hp, _⟩
    · rw [hp]
      exact Or.inl hamem
    · exact hA.memi p hp
  · intro p hp
    rw [hinfos] at hp
    rcases (mem_setInfo _ _ _ hA.keys p).mp hp with hp | ⟨hp, _⟩
    · rw [hp]
      exact claimed_lookup_false _ _ hA.nocl
    · exact hA.nocl p hp
  · have ht := hA.total
    unfold sumDeposits at ht ⊢
    rw [hb, hinfos]
    unfold depL at hupd htot
    omega
  · have ht := hA.bal
    unfold sumDeposits at ht ⊢
    rw [hb, hinfos]
    unfold depL at hupd hbal
    omega

theorem applyForce_fields (snd : Addr) (rb : Nat) (l : List Addr) (s : State) :
    (applyForce snd rb l s).bidders = s.bidders ∧
    (applyForce snd rb l s).nextBidderToCheck = s.nextBidderToCheck ∧
    (applyForce snd rb l s).locked = s.locked ∧
    (applyForce snd rb l s).now = s.now ∧
    (applyForce snd rb l s).escrowDeposits = s.escrowDeposits := by
  induction l generalizing s with
  | nil => exact ⟨rfl, rfl, rfl, rfl, rfl⟩
  | cons a rest ih =>
    simp only [applyForce]
    exact ih _

theorem acct_applyForce (snd : Addr) (rb : Nat) (hrb : 0 < rb) (l : List Addr) :
    ∀ s : State, l.Nodup → Acct s →
    (∀ x ∈ l, x ∈ s.bidders ∧ rb ≤ depL s.infos x) →
    Acct (applyForce snd rb l s) := by
  induction l with
  | nil =>
    intro s _ hA _
    exact hA
  | cons a rest ih =>
    intro s hnd hA hsub
    simp only [List.nodup_cons] at hnd
    obtain ⟨hamem, hrble⟩ := hsub a (by simp)
    have hdle : depL s.infos a ≤ sumDepL s.infos s.bidders := depL_le_sumDepL _ _ _ hamem
    have ht := hA.total
    have hbl := hA.bal
    unfold sumDeposits at ht hbl
    have hda : depL s.infos a = (lookupInfo s.infos a).depositedETH := rfl
    simp only [applyForce]
    refine ih _ hnd.2 ?_ ?_
    · refine acct_update s _ a rb hamem hrb hA rfl ?_ ?_ ?_
      · simp only
        rfl
      · simp only
        simp only [getInfo]
        omega
      · simp only
        simp only [getInfo]
        omega
    · intro x hx
      have hxne : x ≠ a := fun hEq => hnd.1 (hEq ▸ hx)
      obtain ⟨hxm, hxd⟩ := hsub x (by simp [hx])
      constructor
      · simp only
        exact hxm
      · simp only
        unfold depL
        rw [lookupInfo_setInfo_ne _ _ _ _ hxne]
        exact hxd

theorem length_le_sumDepL (i : List (Addr × WorkInfo)) (L : List Addr)
    (h : ∀ x ∈ L, 1 ≤ depL i x) : L.length ≤ sumDepL i L := by
  induction L with
  | nil => simp [sumDepL]
  | cons a rest ih =>
    simp only [sumDepL, List.map_cons, List.sum_cons, List.length_cons]
    have h1 := h a (by simp)
    have h2 := ih fun x hx => h x (by simp [hx])
    unfold sumDepL at h2
    omega

theorem subset_sumDepL (i : List (Addr × WorkInfo)) (l : List Addr) :
    ∀ L : List Addr, l.Nodup → (∀ x ∈ l, x ∈ L) → (∀ x ∈ L, 1 ≤ depL i x) →
    sumDepL i l + L.length ≤ sumDepL i L + l.length := by
  induction l with
  | nil =>
    intro L _ _ hpos
    simp only [sumDepL, List.map_nil, List.sum_nil, List.length_nil]
    have hlen := length_le_sumDepL i L hpos
    unfold sumDepL at hlen
    omega
  | cons a l' ih =>
    intro L hnd hsub hpos
    simp only [List.nodup_cons] at hnd
    obtain ⟨L₁, L₂, hLsplit⟩ := List.append_of_mem (hsub a (by simp))
    subst hLsplit
    have hsub' : ∀ x ∈ l', x ∈ L₁ ++ L₂ := by
      intro x hx
      have hxne : x ≠ a := fun hEq => hnd.1 (hEq ▸ hx)
      have := hsub x (by simp [hx])
      rw [List.mem_append] at this ⊢
      rcases this with h' | h'
      · exact Or.inl h'
      · rcases List.mem_cons.mp h' with h'' | h''
        · exact absurd h'' hxne
        · exact Or.inr h''
    have hpos' : ∀ x ∈ L₁ ++ L₂, 1 ≤ depL i x := by
      intro x hx
      refine hpos x ?_
      rw [List.mem_append] at hx ⊢
      rcases hx with h' | h'
      · exact Or.inl h'
      · exact Or.inr (List.mem_cons_of_mem _ h')
    have hIH := ih (L₁ ++ L₂) hnd.2 hsub' hpos'
    have e1 : sumDepL i (L₁ ++ a :: L₂) = sumDepL i (L₁ ++ L₂) + depL i a := by
      rw [sumDepL_append, sumDepL_append]
      simp only [sumDepL, List.map_cons, List.sum_cons]
      omega
    simp only [sumDepL, List.map_cons, List.sum_cons] at hIH e1 ⊢
    simp only [List.length_append, List.length_cons] at hIH ⊢
    omega

theorem strictAsc_head_lt (x : Addr) (l : List Addr) (h : strictAsc (x :: l) = true) :
    ∀ y ∈ l, x < y := by
  induction l generalizing x with
  | nil => simp
  | cons b rest ih =>
    simp only [strictAsc, Bool.and_eq_true, decide_eq_true_eq] at h
    intro y hy
    rcases List.mem_cons.mp hy with h' | h'
    · exact h' ▸ h.1
    · exact Nat.lt_trans h.1 (ih b h.2 y h')

theorem strictAsc_tail (x : Addr) (l : List Addr) (h : strictAsc (x :: l) = true) :
    strictAsc l = true := by
  cases l with
  | nil => rfl
  | cons b rest =>
    simp only [strictAsc, Bool.and_eq_true] at h
    exact h.2

theorem strictAsc_nodup (l : List Addr) (h : strictAsc l = true) : l.Nodup := by
  induction l with
  | nil => simp
  | cons x rest ih =>
    refine List.nodup_cons.mpr ⟨?_, ih (strictAsc_tail _ _ h)⟩
    intro hmem
    exact absurd rfl (Nat.ne_of_lt (strictAsc_head_lt x rest h x hmem))

theorem minDepOf_le (s : State) (l : List Addr) : ∀ x ∈ l, minDepOf s l ≤ dep s x := by
  induction l with
  | nil => simp
  | cons a rest ih =>
    intro x hx
    cases rest with
    | nil =>
      rcases List.mem_cons.mp hx with h' | h'
      · rw [h']
        exact Nat.le_refl _
      · simp at h'
    | cons b r =>
      simp only [minDepOf]
      rcases List.mem_cons.mp hx with h' | h'
      · rw [h']
        exact Nat.min_le_left _ _
      · exact Nat.le_trans (Nat.min_le_right _ _) (ih x h')

theorem acct_force (P : Params) (sender : Addr) (l : List Addr) (t : Nat) (s s' : State)
    (hA : Acct s) (h : forceRefund P sender l t s = .ok s') : Acct s' := by
  simp only [forceRefund] at h
  split at h
  · simp at h
  split at h
  · simp at h
  split at h
  · simp at h
  split at h
  · simp at h
  split at h
  · simp at h
  split at h
  · simp at h
  split at h
  · simp at h
  split at h
  · simp at h
  split at h
  · simp at h
  rename_i hlock hclock hphase hver hne hasc hmin hden hcap
  injection h with h
  subst h
  rw [Bool.not_eq_false] at hasc
  have hnd : l.Nodup := strictAsc_nodup l hasc
  have hcap' : forcedCap P s l < minDepOf s l := by omega
  have hsub : ∀ x ∈ l, x ∈ s.bidders ∧ forcedCap P s l + 1 ≤ depL s.infos x := by
    intro x hx
    have h1 := minDepOf_le s l x hx
    have h2 : forcedCap P s l < dep s x := by omega
    have h3 : 0 < dep s x := by omega
    refine ⟨hA.mem_of_dep_pos h3, ?_⟩
    unfold dep at h2
    omega
  have hpos1 : ∀ x ∈ s.bidders, 1 ≤ depL s.infos x := fun x hx => hA.pos x hx
  have hsubl : ∀ x ∈ l, x ∈ s.bidders := fun x hx => (hsub x hx).1
  have hcount := subset_sumDepL s.infos l s.bidders hnd hsubl hpos1
  have ht := hA.total
  unfold sumDeposits at ht
  -- the derived cap is positive in the regime the model covers
  have hllen : sumDepOf s l = sumDepL s.infos l := rfl
  have hrest : s.bidders.length ≤ (s.totalDepositedETH - sumDepOf s l) + l.length := by
    rw [hllen]
    omega
  have hrb : 0 < forcedCap P s l := by
    have hden' : 0 < P.tokenSupply - P.maxAllowableLockedTokens * l.length := by omega
    have h1 : P.maxAllowableLockedTokens * s.bidders.length ≤
        P.maxAllowableLockedTokens * ((s.totalDepositedETH - sumDepOf s l) + l.length) :=
      Nat.mul_le_mul_left _ hrest
    have h2 : P.tokenSupply ≤ P.maxAllowableLockedTokens * s.bidders.length := by
      rw [Nat.mul_comm]
      omega
    have h3 : P.maxAllowableLockedTokens * ((s.totalDepositedETH - sumDepOf s l) + l.length)
        = P.maxAllowableLockedTokens * (s.totalDepositedETH - sumDepOf s l)
          + P.maxAllowableLockedTokens * l.length := Nat.mul_add _ _ _
    unfold forcedCap
    refine (Nat.one_le_div_iff hden').mpr ?_
    omega
  have hAF : Acct (applyForce sender (forcedCap P s l) l s) := by
    refine acct_applyForce sender _ hrb l s hnd hA ?_
    intro x hx
    obtain ⟨h1, h2⟩ := hsub x hx
    exact ⟨h1, by omega⟩
  exact ⟨hAF.keys, hAF.nodup, hAF.idx, hAF.pos, hAF.memi, hAF.nocl, hAF.total, hAF.bal⟩

/-! ### The verification-cursor invariant -/

/-- The cursor invariant: `nextBidderToCheck` never exceeds the bidder
count, and is still zero while the cancellation window is open. -/
def Inv37 (P : Params) (s : State) : Prop :=
  s.nextBidderToCheck ≤ s.bidders.length ∧
  (s.now < P.endCancellationDate → s.nextBidderToCheck = 0)

theorem inv37_step (P : Params) (op : Op) (s s' : State)
    (hI : Inv37 P s) (h : execOp P op s = .ok s') : Inv37 P s' := by
  obtain ⟨h1, h2⟩ := hI
  cases op with
  | bid a v t =>
    simp only [execOp, bid] at h
    split at h
    · simp at h
    split at h
    · simp at h
    split at h
    · simp at h
    split at h
    · simp at h
    split at h
    · split at h
      · simp at h
      rename_i hlock hclock hphase hcl hdep hv
      injection h with h
      subst h
      refine ⟨?_, ?_⟩
      · show s.nextBidderToCheck ≤ (s.bidders ++ [a]).length
        simp only [List.length_append, List.length_singleton]
        omega
      · intro hlt
        replace hlt : t < P.endCancellationDate := hlt
        show s.nextBidderToCheck = 0
        exact h2 (by omega)
    · rename_i hlock hclock hphase hcl hdep
      injection h with h
      subst h
      refine ⟨h1, ?_⟩
      intro hlt
      replace hlt : t < P.endCancellationDate := hlt
      show s.nextBidderToCheck = 0
      exact h2 (by omega)
  | cancel a t =>
    simp only [execOp, cancelBid, removeBidder] at h
    split at h
    · simp at h
    split at h
    · simp at h
    split at h
    · simp at h
    split at h
    · simp at h
    split at h
    · simp at h
    rename_i hlock hclock hphase hcl hdep
    have hcan : t < P.endCancellationDate := by
      rcases not_or.mp hphase with ⟨_, h'⟩
      omega
    injection h with h
    subst h
    have h0 : s.nextBidderToCheck = 0 := h2 (by omega)
    refine ⟨?_, ?_⟩
    · show s.nextBidderToCheck ≤ _
      rw [h0]
      exact Nat.zero_le _
    · intro _
      show s.nextBidderToCheck = 0
      exact h0
  | force sender l t =>
    simp only [execOp, forceRefund] at h
    split at h
    · simp at h
    split at h
    · simp at h
    split at h
    · simp at h
    split at h
    · simp at h
    split at h
    · simp at h
    split at h
    · simp at h
    split at h
    · simp at h
    split at h
    · simp at h
    split at h
    · simp at h
    rename_i hlock hclock hphase hver hne hasc hmin hden hcap
    injection h with h
    subst h
    obtain ⟨hb, hn, _, _, _⟩ := applyForce_fields sender (forcedCap P s l) l s
    refine ⟨?_, ?_⟩
    · show (applyForce sender (forcedCap P s l) l s).nextBidderToCheck ≤
        (applyForce sender (forcedCap P s l) l s).bidders.length
      rw [hb, hn]
      exact h1
    · intro hlt
      replace hlt : t < P.endCancellationDate := hlt
      omega
  | verify sender budget t =>
    simp only [execOp, verifyBiddingCorrectness] at h
    split at h
    · simp at h
    split at h
    · simp at h
    split at h
    · simp at h
    split at h
    · simp at h
    split at h
    · split at h
      · rename_i hlock hclock hphase hbud hall hprog
        injection h with h
        subst h
        refine ⟨?_, ?_⟩
        · show min s.bidders.length _ ≤ s.bidders.length
          exact Nat.min_le_left _ _
        · intro hlt
          replace hlt : t < P.endCancellationDate := hlt
          omega
      · rename_i hlock hclock hphase hbud hall hprog
        injection h with h
        subst h
        refine ⟨h1, ?_⟩
        intro hlt
        replace hlt : t < P.endCancellationDate := hlt
        omega
    · simp at h
  | claim a w0 t =>
    simp only [execOp, claimOp] at h
    split at h
    · simp at h
    split at h
    · simp at h
    split at h
    · simp at h
    split at h
    · simp at h
    split at h
    · simp at h
    split at h
    · simp at h
    rename_i hlock hclock hphase hver hcl hdep
    injection h with h
    subst h
    refine ⟨h1, ?_⟩
    intro hlt
    replace hlt : t < P.endCancellationDate := hlt
    omega
  | refund a wNow t =>
    simp only [execOp, refundOp] at h
    split at h
    · simp at h
    split at h
    · simp at h
    split at h
    · simp at h
    split at h
    · simp at h
    split at h
    · simp at h
    rename_i hlock hclock hcl hdep hwork
    injection h with h
    subst h
    refine ⟨h1, ?_⟩
    intro hlt
    replace hlt : t < P.endCancellationDate := hlt
    show s.nextBidderToCheck = 0
    exact h2 (by omega)

theorem inv37_init (P : Params) : Inv37 P initState :=
  ⟨Nat.le_refl _, fun _ => rfl⟩

theorem inv37_trace (P : Params) (ops : List Op) :
    ∀ s s' : State, Inv37 P s → execTrace P ops s = .ok s' → Inv37 P s' := by
  induction ops with
  | nil =>
    intro s s' hI h
    simp only [execTrace] at h
    injection h with h
    exact h ▸ hI
  | cons op rest ih =>
    intro s s' hI h
    simp only [execTrace] at h
    cases hop : execOp P op s with
    | ok s₁ =>
      rw [hop] at h
      exact ih s₁ s' (inv37_step P op s s₁ hI hop) h
    | error e =>
      rw [hop] at h
      simp at h

/-- Calls that only touch the bid ledger: bid, cancelBid, forceRefund. -/
def isBCF : Op → Bool
  | .bid .. => true
  | .cancel .. => true
  | .force .. => true
  | _ => false

theorem acct_init : Acct initState := by
  refine ⟨?_, ?_, ?_, ?_, ?_, ?_, rfl, rfl⟩
  · simp [initState]
  · simp [initState]
  · intro i hi
    simp [initState] at hi
  · intro a ha
    simp [initState] at ha
  · intro p hp
    simp [initState] at hp
  · intro p hp
    simp [initState] at hp

theorem acct_trace (P : Params) (hmin : 0 < P.minAllowedBid) (ops : List Op) :
    ∀ s s' : State, Acct s → (∀ op ∈ ops, isBCF op = true) →
      execTrace P ops s = .ok s' → Acct s' := by
  induction ops with
  | nil =>
    intro s s' hA _ h
    simp only [execTrace] at h
    injection h with h
    exact h ▸ hA
  | cons op rest ih =>
    intro s s' hA hops h
    simp only [execTrace] at h
    cases hop : execOp P op s with
    | error e =>
      rw [hop] at h
      simp at h
    | ok s₁ =>
      rw [hop] at h
      refine ih s₁ s' ?_ (fun o ho => hops o (by simp [ho])) h
      have hbcf := hops op (by simp)
      cases op with
      | bid a v t => exact acct_bid P a v t s s₁ hmin hA hop
      | cancel a t => exact acct_cancel P a t s s₁ hA hop
      | force sender l t => exact acct_force P sender l t s s₁ hA hop
      | verify sender b t => simp [isBCF] at hbcf
      | claim a w0 t => simp [isBCF] at hbcf
      | refund a w t => simp [isBCF] at hbcf

/-- The verification cursor never moves backwards on any successful call. -/
theorem next_mono (P : Params) (op : Op) (s s' : State) (h : execOp P op s = .ok s') :
    s.nextBidderToCheck ≤ s'.nextBidderToCheck := by
  cases op with
  | bid a v t =>
    simp only [execOp, bid] at h
    split at h
    · simp at h
    split at h
    · simp at h
    split at h
    · simp at h
    split at h
    · simp at h
    split at h
    · split at h
      · simp at h
      injection h with h
      subst h
      exact Nat.le_refl _
    · injection h with h
      subst h
      exact Nat.le_refl _
  | cancel a t =>
    simp only [execOp, cancelBid, removeBidder] at h
    split at h
    · simp at h
    split at h
    · simp at h
    split at h
    · simp at h
    split at h
    · simp at h
    split at h
    · simp at h
    injection h with h
    subst h
    exact Nat.le_refl _
  | force sender l t =>
    simp only [execOp, forceRefund] at h
    split at h
    · simp at h
    split at h
    · simp at h
    split at h
    · simp at h
    split at h
    · simp at h
    split at h
    · simp at h
    split at h
    · simp at h
    split at h
    · simp at h
    split at h
    · simp at h
    split at h
    · simp at h
    injection h with h
    subst h
    obtain ⟨_, hn, _, _, _⟩ := applyForce_fields sender (forcedCap P s l) l s
    show s.nextBidderToCheck ≤ (applyForce sender (forcedCap P s l) l s).nextBidderToCheck
    rw [hn]
  | verify sender budget t =>
    simp only [execOp, verifyBiddingCorrectness] at h
    split at h
    · simp at h
    split at h
    · simp at h
    split at h
    · simp at h
    split at h
    · simp at h
    split at h
    · split at h
      · rename_i hlock hclock hphase hbud hall hprog
        injection h with h
        subst h
        show s.nextBidderToCheck ≤ min s.bidders.length _
        omega
      · injection h with h
        subst h
        exact Nat.le_refl _
    · simp at h
  | claim a w0 t =>
    simp only [execOp, claimOp] at h
    split at h
    · simp at h
    split at h
    · simp at h
    split at h
    · simp at h
    split at h
    · simp at h
    split at h
    · simp at h
    split at h
    · simp at h
    injection h with h
    subst h
    exact Nat.le_refl _
  | refund a wNow t =>
    simp only [execOp, refundOp] at h
    split at h
    · simp at h
    split at h
    · simp at h
    split at h
    · simp at h
    split at h
    · simp at h
    split at h
    · simp at h
    injection h with h
    subst h
    exact Nat.le_refl _

/-- Once claiming is available (cancellation window over, cursor at the end
of the list), every successful call keeps it available. -/
theorem sticky_step (P : Params) (hP : ParamsWF P) (op : Op) (s s' : State)
    (hav : P.endCancellationDate ≤ s.now ∧ s.nextBidderToCheck = s.bidders.length)
    (h : execOp P op s = .ok s') :
    P.endCancellationDate ≤ s'.now ∧ s'.nextBidderToCheck = s'.bidders.length := by
  obtain ⟨hP1, hP2, _⟩ := hP
  obtain ⟨hnow, hdone⟩ := hav
  cases op with
  | bid a v t =>
    simp only [execOp, bid] at h
    split at h
    · simp at h
    split at h
    · simp at h
    split at h
    · simp at h
    rename_i hlock hclock hphase
    rw [not_or] at hphase
    exfalso
    omega
  | cancel a t =>
    simp only [execOp, cancelBid] at h
    split at h
    · simp at h
    split at h
    · simp at h
    split at h
    · simp at h
    rename_i hlock hclock hphase
    rw [not_or] at hphase
    exfalso
    omega
  | force sender l t =>
    simp only [execOp, forceRefund] at h
    split at h
    · simp at h
    split at h
    · simp at h
    split at h
    · simp at h
    simp at h
  | verify sender budget t =>
    simp only [execOp, verifyBiddingCorrectness] at h
    split at h
    · simp at h
    split at h
    · simp at h
    split at h
    · simp at h
    split at h
    · simp at h
    split at h
    · split at h
      · rename_i hlock hclock hphase hbud hall hprog
        exfalso
        rw [hdone] at hprog
        have hle := Nat.min_le_left s.bidders.length
          (s.bidders.length + budget / P.checkCost)
        omega
      · rename_i hlock hclock hphase hbud hall hprog
        injection h with h
        subst h
        refine ⟨?_, hdone⟩
        show P.endCancellationDate ≤ t
        omega
    · simp at h
  | claim a w0 t =>
    simp only [execOp, claimOp] at h
    split at h
    · simp at h
    split at h
    · simp at h
    split at h
    · simp at h
    split at h
    · simp at h
    split at h
    · simp at h
    split at h
    · simp at h
    rename_i hlock hclock hphase hver hcl hdep
    injection h with h
    subst h
    refine ⟨?_, hdone⟩
    show P.endCancellationDate ≤ t
    omega
  | refund a wNow t =>
    simp only [execOp, refundOp] at h
    split at h
    · simp at h
    split at h
    · simp at h
    split at h
    · simp at h
    split at h
    · simp at h
    split at h
    · simp at h
    rename_i hlock hclock hcl hdep hwork
    injection h with h
    subst h
    refine ⟨?_, hdone⟩
    show P.endCancellationDate ≤ t
    omega

/-- With no claimed entry, the active sum is the full deposit sum and the
claimed-held sum vanishes. -/
theorem sums_of_noClaims (s : State) (h : ∀ p ∈ s.infos, p.2.claimed = false) :
    activeSum s = sumDeposits s ∧ claimedSum s = 0 := by
  have hcl : ∀ a, (getInfo s a).claimed = false := fun a => claimed_lookup_false _ _ h
  unfold activeSum claimedSum sumDeposits sumDepL
  have : ∀ L : List Addr,
      (L.map fun a => if (getInfo s a).claimed then 0 else dep s a) = L.map (dep s) ∧
      (L.map fun a => if (getInfo s a).claimed then dep s a else 0).sum = 0 := by
    intro L
    induction L with
    | nil => simp
    | cons a rest ih =>
      simp only [List.map_cons, List.sum_cons, hcl a]
      refine ⟨?_, ?_⟩
      · rw [if_neg (by simp), ih.1]
      · rw [if_neg (by simp), ih.2]
  refine ⟨?_, (this s.bidders).2⟩
  rw [(this s.bidders).1]
  rfl

/-- Whether a call succeeded. -/
def isOkE : Except Err State → Bool
  | .ok _ => true
  | .error _ => false

/-- A verification call with a nonzero budget whose scanned range is
non-empty and all-compliant advances the cursor to the end of the scanned
range. -/
theorem verify_progress (P : Params) (sender budget t : Nat) (s : State) (stop : Nat)
    (hlock : s.locked = false) (hclock : s.now ≤ t) (hphase : P.endCancellationDate ≤ t)
    (hbud : budget ≠ 0)
    (hstop : stop = min s.bidders.length (s.nextBidderToCheck + budget / P.checkCost))
    (hlt : s.nextBidderToCheck < stop)
    (hcomp : ∀ i < s.bidders.length, s.nextBidderToCheck ≤ i →
      compliant P s (s.bidders.getD i 0) = true) :
    execOp P (Op.verify sender budget t) s = .ok { s with
      now := t
      nextBidderToCheck := stop
      events := s.events ++ [.biddersChecked sender s.nextBidderToCheck stop] } := by
  subst hstop
  show verifyBiddingCorrectness P sender budget t s = _
  simp only [verifyBiddingCorrectness]
  have hall : (List.range' s.nextBidderToCheck
      (min s.bidders.length (s.nextBidderToCheck + budget / P.checkCost) -
        s.nextBidderToCheck)).all
      (fun i => compliant P s (s.bidders.getD i 0)) = true := by
    rw [List.all_eq_true]
    intro i hi
    rw [List.mem_range'_1] at hi
    have hmin := Nat.min_le_left s.bidders.length
      (s.nextBidderToCheck + budget / P.checkCost)
    show compliant P s (s.bidders.getD i 0) = true
    exact hcomp i (by omega) (by omega)
  rw [if_neg (by simp [hlock]), if_neg (by omega), if_neg (by omega), if_neg hbud,
    if_pos hall, if_pos hlt]

/-- A verification call whose budget affords no entry is a successful
no-op: only the clock advances. -/
theorem verify_noop (P : Params) (sender budget t : Nat) (s : State)
    (hlock : s.locked = false) (hclock : s.now ≤ t) (hphase : P.endCancellationDate ≤ t)
    (hbud : budget ≠ 0)
    (hge : min s.bidders.length (s.nextBidderToCheck + budget / P.checkCost) ≤
      s.nextBidderToCheck) :
    execOp P (Op.verify sender budget t) s = .ok { s with now := t } := by
  show verifyBiddingCorrectness P sender budget t s = _
  simp only [verifyBiddingCorrectness]
  have hzero : min s.bidders.length (s.nextBidderToCheck + budget / P.checkCost) -
      s.nextBidderToCheck = 0 := by omega
  rw [if_neg (by simp [hlock]), if_neg (by omega), if_neg (by omega), if_neg hbud, hzero]
  rw [if_pos (by rfl), if_neg (by omega)]

/-! ### Example deployment and states used by the claim witnesses -/

/-- An example deployment: supply 100, bidding window `[0, 20)`,
cancellation ends at 30, minimum bid 1, boosting 50 against the slowing
constant 100, 7 staking periods, per-bidder cap 100, unit check cost. -/
def Pex : Params :=
  { tokenSupply := 100, startBidDate := 0, endBidDate := 20, endCancellationDate := 30,
    minAllowedBid := 1, boostingRefund := 50, slowingRefund := 100, stakingPeriods := 7,
    maxAllowableLockedTokens := 100, checkCost := 1 }

/-- A deployment with a cap below the supply, so that over-cap bidders can
exist: supply 1000, cap 100. -/
def Pwh : Params :=
  { tokenSupply := 1000, startBidDate := 0, endBidDate := 20, endCancellationDate := 30,
    minAllowedBid := 1, boostingRefund := 50, slowingRefund := 100, stakingPeriods := 7,
    maxAllowableLockedTokens := 100, checkCost := 1 }

/-- A state with one small and one whale bidder (deposits 5 and 500),
after the cancellation window. -/
def sWhale : State :=
  { bidders := [1, 2], infos := [(1, ⟨5, 0, false, 0⟩), (2, ⟨500, 0, false, 1⟩)],
    totalDepositedETH := 505, nextBidderToCheck := 0, ethBalance := 505,
    escrowDeposits := [], events := [], locked := false, now := 30 }

/-- A fully verified single-bidder state ready for claiming. -/
def sReady : State :=
  { bidders := [1], infos := [(1, ⟨10, 0, false, 0⟩)],
    totalDepositedETH := 10, nextBidderToCheck := 1, ethBalance := 10,
    escrowDeposits := [], events := [], locked := false, now := 30 }

/-- A state whose bidder has claimed and been partially refunded: deposit
8 remains, the compensated-work baseline is 40. -/
def sClaimed : State :=
  { bidders := [1], infos := [(1, ⟨8, 40, true, 0⟩)],
    totalDepositedETH := 10, nextBidderToCheck := 1, ethBalance := 8,
    escrowDeposits := [(1, 100, 7)], events := [], locked := false, now := 32 }

/-- A three-bidder compliant state after the cancellation window, with the
verification scan not yet started. -/
def sThree : State :=
  { bidders := [1, 2, 3],
    infos := [(1, ⟨10, 0, false, 0⟩), (2, ⟨10, 0, false, 1⟩), (3, ⟨10, 0, false, 2⟩)],
    totalDepositedETH := 30, nextBidderToCheck := 0, ethBalance := 30,
    escrowDeposits := [], events := [], locked := false, now := 30 }

/-- A state observed mid-call, while the reentrancy lock is held. -/
def sMidCall : State :=
  { bidders := [1], infos := [(1, ⟨10, 0, false, 0⟩)],
    totalDepositedETH := 10, nextBidderToCheck := 0, ethBalance := 10,
    escrowDeposits := [], events := [], locked := true, now := 25 }

/-- The bid-then-cancel trace backing the C3 counterexample. -/
def trcEmptyAgain : List Op := [Op.bid 1 5 3, Op.cancel 1 4]

/-- The ledger state reached by `trcEmptyAgain`: empty again, cursor and
bidder count both zero, clock at 4 (inside the bidding window). -/
def sEmptyAgain : State :=
  { bidders := [], infos := [(1, WorkInfo.empty)], totalDepositedETH := 0,
    nextBidderToCheck := 0, ethBalance := 0, escrowDeposits := [],
    events := [Event.bidPlaced 1 5, Event.canceled 1 5], locked := false, now := 4 }

/-- The trace backing the C2 counterexample: a bid, a full verification, a
claim, and a first successful refund after 40 units of completed work. -/
def trcRefunded : List Op :=
  [Op.bid 1 10 10, Op.verify 2 1000 30, Op.claim 1 0 31, Op.refund 1 40 32]

/-- The bid/cancel trace backing the C1 witness. -/
def trcLedger : List Op := [Op.bid 1 2 5, Op.bid 2 1 6, Op.cancel 2 7]

/-- The ledger state reached by `trcLedger`. -/
def sLedger : State :=
  { bidders := [1], infos := [(1, ⟨2, 0, false, 0⟩), (2, WorkInfo.empty)],
    totalDepositedETH := 2, nextBidderToCheck := 0, ethBalance := 2,
    escrowDeposits := [],
    events := [Event.bidPlaced 1 2, Event.bidPlaced 2 1, Event.canceled 2 1],
    locked := false, now := 7 }

/-! ### The claims -/

/-- C8: Round-trip law: for every allocation value `x` (in particular
every value reachable through an actual claim), converting it to required
work with `allocationToWork` (which rounds up: `ceil(x * slowingRefund /
boostingRefund)`) and back with `workToAmount` returns exactly `x`, in the
repository's parameter regime (positive `boostingRefund` not exceeding the
`SLOWING_REFUND` constant). -/
theorem allocation_work_roundtrip (P : Params) (hb : 0 < P.boostingRefund)
    (hs : P.boostingRefund ≤ P.slowingRefund) (x : Nat) :
    workToAmount P (allocationToWork P x) = x := by
  unfold workToAmount allocationToWork divCeil
  have hd := Nat.div_add_mod (x * P.slowingRefund + P.boostingRefund - 1) P.boostingRefund
  have hm := Nat.mod_lt (x * P.slowingRefund + P.boostingRefund - 1) hb
  have hcomm : (x * P.slowingRefund + P.boostingRefund - 1) / P.boostingRefund *
      P.boostingRefund = P.boostingRefund *
      ((x * P.slowingRefund + P.boostingRefund - 1) / P.boostingRefund) :=
    Nat.mul_comm _ _
  refine Nat.div_eq_of_lt_le ?_ ?_
  · omega
  · rw [Nat.succ_mul]
    omega

/-- C8 witness: the round-trip law at the example deployment and the
concrete allocation value 12345. -/
theorem allocation_work_roundtrip_witness :
    0 < Pex.boostingRefund ∧ Pex.boostingRefund ≤ Pex.slowingRefund ∧
      workToAmount Pex (allocationToWork Pex 12345) = 12345 :=
  ⟨by decide, by decide, allocation_work_roundtrip Pex (by decide) (by decide) 12345⟩

/-- C9: every mutating operation is wrapped by the reentrancy guard: a
nested call attempted while the lock is held (that is, during the outer
call's value transfer) is rejected with `Reentrancy`, and the observable
state after the rejected call — deposits, balances, escrow forwards and
the emitted-event history — is exactly the pre-call state. -/
theorem reentrancy_guard_rejects (P : Params) (op : Op) (s : State)
    (h : s.locked = true) :
    execOp P op s = .error .reentrancy ∧ runOp P op s = s := by
  have hexec : execOp P op s = .error .reentrancy := by
    cases op <;>
      simp [execOp, bid, cancelBid, forceRefund, verifyBiddingCorrectness, claimOp,
        refundOp, h]
  refine ⟨hexec, ?_⟩
  unfold runOp
  rw [hexec]

/-- C9 witness: a cancel attempted while the lock is held is rejected and
changes nothing. -/
theorem reentrancy_guard_rejects_witness :
    sMidCall.locked = true ∧
      (execOp Pex (Op.cancel 1 26) sMidCall = .error .reentrancy ∧
        runOp Pex (Op.cancel 1 26) sMidCall = sMidCall) :=
  ⟨rfl, reentrancy_guard_rejects Pex (Op.cancel 1 26) sMidCall rfl⟩

/-- C2 counterexample: the claim "calling refund again when no additional
completedWork has accrued since the previous release releases zero
collateral and succeeds as a harmless no-op; it is not an error" is false
on the code: after a bid, full verification, a claim and a successful
refund at 40 completed work units, repeating the refund with the same
completed-work reading fails with a no-new-work error instead of
succeeding. -/
theorem refund_idempotence_counterexample :
    isOkE (execTrace Pex trcRefunded initState) = true ∧
      execTrace Pex (trcRefunded ++ [Op.refund 1 40 33]) initState =
        .error .noWork :=
  ⟨rfl, rfl⟩

/-- C2 (amended): for every bidder who has claimed and still holds a
deposit, calling refund again when no additional completedWork has accrued
since the previous release is rejected with a no-new-work error and
releases nothing: the observable state is unchanged.  (The spec's
"harmless no-op" wording is contradicted by the repository's tests, which
expect the call to fail.) -/
theorem refund_no_new_work_errors (P : Params) (a : Addr) (wNow t : Nat) (s : State)
    (hlock : s.locked = false) (hclock : s.now ≤ t)
    (hcl : (getInfo s a).claimed = true) (hdep : 0 < (getInfo s a).depositedETH)
    (hw : wNow ≤ (getInfo s a).completedWork) :
    execOp P (Op.refund a wNow t) s = .error .noWork ∧
      runOp P (Op.refund a wNow t) s = s := by
  have hexec : execOp P (Op.refund a wNow t) s = .error .noWork := by
    show refundOp P a wNow t s = _
    simp only [refundOp]
    rw [if_neg (by simp [hlock]), if_neg (by omega), if_neg (by simp [hcl]),
      if_neg (by omega), if_pos (by omega)]
  refine ⟨hexec, ?_⟩
  unfold runOp
  rw [hexec]

/-- C2 witness: the amended statement at the partially refunded example
state, with the escrow still reporting 40 units of completed work. -/
theorem refund_no_new_work_errors_witness :
    (getInfo sClaimed 1).claimed = true ∧ 0 < (getInfo sClaimed 1).depositedETH ∧
      40 ≤ (getInfo sClaimed 1).completedWork ∧
      (execOp Pex (Op.refund 1 40 33) sClaimed = .error .noWork ∧
        runOp Pex (Op.refund 1 40 33) sClaimed = sClaimed) :=
  ⟨rfl, by decide, by decide,
    refund_no_new_work_errors Pex 1 40 33 sClaimed rfl (by decide) rfl (by decide)
      (by decide)⟩

/-- C7: for every bidder with an unclaimed positive entry once
verification is complete (cursor at the bidder count, cancellation window
over), the claim succeeds, forwards exactly
`depositedAmount * allocationSupply / totalDeposited` tokens — rounded
down, computed against the call-time `totalDeposited`, which reflects all
earlier cancellations and forced refunds — together with `stakingPeriods`
to the StakingEscrow deposit interface, sets `hasClaimed`, and leaves the
recorded deposit unchanged. -/
theorem claim_converts_at_call_time (P : Params) (a : Addr) (w0 t : Nat) (s : State)
    (hlock : s.locked = false) (hclock : s.now ≤ t)
    (hphase : P.endCancellationDate ≤ t)
    (hver : s.nextBidderToCheck = s.bidders.length)
    (hncl : (getInfo s a).claimed = false)
    (hdep : 0 < (getInfo s a).depositedETH) :
    isOkE (execOp P (Op.claim a w0 t) s) = true ∧
      (runOp P (Op.claim a w0 t) s).escrowDeposits = s.escrowDeposits ++
        [(a, (getInfo s a).depositedETH * P.tokenSupply / s.totalDepositedETH,
          P.stakingPeriods)] ∧
      (getInfo (runOp P (Op.claim a w0 t) s) a).claimed = true ∧
      (getInfo (runOp P (Op.claim a w0 t) s) a).depositedETH =
        (getInfo s a).depositedETH := by
  have hexec : execOp P (Op.claim a w0 t) s = .ok { s with
      now := t
      infos := setInfo s.infos a { getInfo s a with claimed := true, completedWork := w0 }
      escrowDeposits := s.escrowDeposits ++
        [(a, ethToTokens P s.totalDepositedETH (getInfo s a).depositedETH,
          P.stakingPeriods)]
      events := s.events ++
        [.claimedTokens a (ethToTokens P s.totalDepositedETH (getInfo s a).depositedETH)] } := by
    show claimOp P a w0 t s = _
    simp only [claimOp]
    rw [if_neg (by simp [hlock]), if_neg (by omega), if_neg (by omega),
      if_neg (by simp [hver]), if_neg (by simp [hncl]), if_neg (by omega)]
  have hrun : runOp P (Op.claim a w0 t) s = { s with
      now := t
      infos := setInfo s.infos a { getInfo s a with claimed := true, completedWork := w0 }
      escrowDeposits := s.escrowDeposits ++
        [(a, ethToTokens P s.totalDepositedETH (getInfo s a).depositedETH,
          P.stakingPeriods)]
      events := s.events ++
        [.claimedTokens a (ethToTokens P s.totalDepositedETH (getInfo s a).depositedETH)] } := by
    unfold runOp
    rw [hexec]
  refine ⟨?_, ?_, ?_, ?_⟩
  · rw [hexec]
    rfl
  · rw [hrun]
    rfl
  · rw [hrun]
    show (lookupInfo (setInfo s.infos a _) a).claimed = true
    rw [lookupInfo_setInfo_self]
  · rw [hrun]
    show (lookupInfo (setInfo s.infos a _) a).depositedETH = _
    rw [lookupInfo_setInfo_self]

/-- C7 witness: the claim at the verified single-bidder example state. -/
theorem claim_converts_at_call_time_witness :
    sReady.locked = false ∧ sReady.nextBidderToCheck = sReady.bidders.length ∧
      (getInfo sReady 1).claimed = false ∧ 0 < (getInfo sReady 1).depositedETH ∧
      (isOkE (execOp Pex (Op.claim 1 0 31) sReady) = true ∧
        (runOp Pex (Op.claim 1 0 31) sReady).escrowDeposits = sReady.escrowDeposits ++
          [(1, (getInfo sReady 1).depositedETH * Pex.tokenSupply /
            sReady.totalDepositedETH, Pex.stakingPeriods)] ∧
        (getInfo (runOp Pex (Op.claim 1 0 31) sReady) 1).claimed = true ∧
        (getInfo (runOp Pex (Op.claim 1 0 31) sReady) 1).depositedETH =
          (getInfo sReady 1).depositedETH) :=
  ⟨rfl, rfl, rfl, by decide,
    claim_converts_at_call_time Pex 1 0 31 sReady rfl (by decide) (by decide) rfl rfl
      (by decide)⟩

/-- C5: whenever the verification scan's affordable range contains a
bidder whose deposit converts to more allocation than the per-bidder cap,
the whole call fails with `UnfairBid` and the observable state — in
particular `nextCheckIndex` — is exactly the pre-call state, even if
compliant bidders sit earlier in the same scanned range; moreover no
successful verification call ever changes any deposit or `totalDeposited`,
so only an explicit `forceRefund` can make the scan proceed past the
offending entry. -/
theorem verify_unfair_bid (P : Params) (sender : Addr) (b t : Nat) (s : State) (p : Nat)
    (hlock : s.locked = false) (hclock : s.now ≤ t)
    (hphase : P.endCancellationDate ≤ t) (hb : b ≠ 0)
    (hp1 : s.nextBidderToCheck ≤ p) (hp2 : p < s.bidders.length)
    (hp3 : p < s.nextBidderToCheck + b / P.checkCost)
    (hbad : compliant P s (s.bidders.getD p 0) = false) :
    execOp P (Op.verify sender b t) s = .error .unfairBid ∧
      runOp P (Op.verify sender b t) s = s ∧
      (∀ (b' t' : Nat) (s' : State), execOp P (Op.verify sender b' t') s = .ok s' →
        s'.infos = s.infos ∧ s'.bidders = s.bidders ∧
          s'.totalDepositedETH = s.totalDepositedETH) := by
  have hexec : execOp P (Op.verify sender b t) s = .error .unfairBid := by
    show verifyBiddingCorrectness P sender b t s = _
    simp only [verifyBiddingCorrectness]
    have hnall : ¬ ((List.range' s.nextBidderToCheck
        (min s.bidders.length (s.nextBidderToCheck + b / P.checkCost) -
          s.nextBidderToCheck)).all
        (fun i => compliant P s (s.bidders.getD i 0)) = true) := by
      intro hall
      rw [List.all_eq_true] at hall
      have hmem : p ∈ List.range' s.nextBidderToCheck
          (min s.bidders.length (s.nextBidderToCheck + b / P.checkCost) -
            s.nextBidderToCheck) := by
        rw [List.mem_range'_1]
        refine ⟨hp1, ?_⟩
        have := Nat.lt_min.mpr ⟨hp2, hp3⟩
        omega
      have hp := hall p hmem
      simp only at hp
      rw [hbad] at hp
      exact absurd hp (by simp)
    rw [if_neg (by simp [hlock]), if_neg (by omega), if_neg (by omega), if_neg hb,
      if_neg hnall]
  refine ⟨hexec, ?_, ?_⟩
  · unfold runOp
    rw [hexec]
  · intro b' t' s' h
    simp only [execOp, verifyBiddingCorrectness] at h
    split at h
    · simp at h
    split at h
    · simp at h
    split at h
    · simp at h
    split at h
    · simp at h
    split at h
    · split at h
      · injection h with h
        subst h
        exact ⟨rfl, rfl, rfl⟩
      · injection h with h
        subst h
        exact ⟨rfl, rfl, rfl⟩
    · simp at h

/-- C5 witness: scanning the whale state (small compliant bidder first,
over-cap bidder second, both within the budget's range) fails with
`UnfairBid` and changes nothing. -/
theorem verify_unfair_bid_witness :
    compliant Pwh sWhale (sWhale.bidders.getD 1 0) = false ∧
      compliant Pwh sWhale (sWhale.bidders.getD 0 0) = true ∧
      (execOp Pwh (Op.verify 9 100 31) sWhale = .error .unfairBid ∧
        runOp Pwh (Op.verify 9 100 31) sWhale = sWhale ∧
        (∀ (b' t' : Nat) (s' : State),
          execOp Pwh (Op.verify 9 b' t') sWhale = .ok s' →
          s'.infos = sWhale.infos ∧ s'.bidders = sWhale.bidders ∧
            s'.totalDepositedETH = sWhale.totalDepositedETH)) :=
  ⟨by decide, by decide,
    verify_unfair_bid Pwh 9 100 31 sWhale 1 rfl (by decide) (by decide) (by decide)
      (by decide) (by decide) (by decide) (by decide)⟩

/-- C6: a forceRefund batch succeeds only when the address list is
non-empty, strictly ascending (hence duplicate-free), and every listed
address currently holds strictly more than the derived per-bidder cap — in
particular every listed address is a known bidder with a positive deposit,
so an empty list, a compliant or unknown bidder, a duplicate or an
unsorted list makes the whole call fail; and a failed call has no partial
effect: every bidder's recorded deposit and the held balance are
unchanged. -/
theorem forceRefund_batch_preconditions (P : Params) (sender : Addr) (l : List Addr)
    (t : Nat) (s : State)
    (hW : ∀ p ∈ s.infos, p.1 ∈ s.bidders ∨ p.2 = WorkInfo.empty) :
    (∀ s', execOp P (Op.force sender l t) s = .ok s' →
      l ≠ [] ∧ strictAsc l = true ∧ l.Nodup ∧
      (∀ a ∈ l, forcedCap P s l < dep s a ∧ 0 < dep s a ∧ a ∈ s.bidders)) ∧
    (∀ e, execOp P (Op.force sender l t) s = .error e →
      (∀ a, dep (runOp P (Op.force sender l t) s) a = dep s a) ∧
      (runOp P (Op.force sender l t) s).ethBalance = s.ethBalance) := by
  constructor
  · intro s' h
    simp only [execOp, forceRefund] at h
    split at h
    · simp at h
    split at h
    · simp at h
    split at h
    · simp at h
    split at h
    · simp at h
    split at h
    · simp at h
    split at h
    · simp at h
    split at h
    · simp at h
    split at h
    · simp at h
    split at h
    · simp at h
    rename_i hlock hclock hphase hver hne hasc hminr hden hcap
    rw [Bool.not_eq_false] at hasc
    refine ⟨?_, hasc, strictAsc_nodup l hasc, ?_⟩
    · intro hnil
      rw [hnil] at hne
      exact hne rfl
    · intro a ha
      have h1 := minDepOf_le s l a ha
      have h2 : forcedCap P s l < dep s a := by omega
      have h3 : 0 < dep s a := by omega
      refine ⟨h2, h3, ?_⟩
      have hne2 : lookupInfo s.infos a ≠ WorkInfo.empty := by
        intro he
        unfold dep depL at h3
        rw [he] at h3
        simp [WorkInfo.empty] at h3
      rcases hW _ (mem_of_lookupInfo_ne_empty s.infos a hne2) with h' | h'
      · exact h'
      · exact absurd h' hne2
  · intro e h
    unfold runOp
    rw [h]
    exact ⟨fun a => rfl, rfl⟩

/-- C6 witness: the precondition characterization at the whale state. -/
theorem forceRefund_batch_preconditions_witness :
    (∀ p ∈ sWhale.infos, p.1 ∈ sWhale.bidders ∨ p.2 = WorkInfo.empty) ∧
      ((∀ s', execOp Pwh (Op.force 9 [2] 31) sWhale = .ok s' →
        [2] ≠ ([] : List Addr) ∧ strictAsc [2] = true ∧ ([2] : List Addr).Nodup ∧
        (∀ a ∈ ([2] : List Addr), forcedCap Pwh sWhale [2] < dep sWhale a ∧
          0 < dep sWhale a ∧ a ∈ sWhale.bidders)) ∧
      (∀ e, execOp Pwh (Op.force 9 [2] 31) sWhale = .error e →
        (∀ a, dep (runOp Pwh (Op.force 9 [2] 31) sWhale) a = dep sWhale a) ∧
        (runOp Pwh (Op.force 9 [2] 31) sWhale).ethBalance = sWhale.ethBalance)) :=
  ⟨by decide, forceRefund_batch_preconditions Pwh 9 [2] 31 sWhale (by decide)⟩

/-- C4: after the cancellation window, with every remaining bidder
compliant: a verification call whose budget covers exactly one entry
succeeds, advances `nextCheckIndex` by exactly one and leaves claiming
unavailable, and a later call with enough budget for the remaining entries
completes the scan; a call whose nonzero budget is too small to check even
one entry succeeds as a no-op with `nextCheckIndex` unchanged; and a call
with budget exactly zero fails. -/
theorem verify_budget_behaviour (P : Params) (sender : Addr) (t : Nat) (s : State)
    (hcost : 0 < P.checkCost) (hlock : s.locked = false) (hclock : s.now ≤ t)
    (hphase : P.endCancellationDate ≤ t)
    (hcomp : ∀ i < s.bidders.length, s.nextBidderToCheck ≤ i →
      compliant P s (s.bidders.getD i 0) = true) :
    (∀ b, P.checkCost ≤ b → b < 2 * P.checkCost →
      s.nextBidderToCheck + 1 < s.bidders.length →
      isOkE (execOp P (Op.verify sender b t) s) = true ∧
      (runOp P (Op.verify sender b t) s).nextBidderToCheck =
        s.nextBidderToCheck + 1 ∧
      isClaimingAvailable P (runOp P (Op.verify sender b t) s) = false ∧
      (∀ b₂ t₂, t ≤ t₂ →
        (s.bidders.length - (s.nextBidderToCheck + 1)) * P.checkCost ≤ b₂ →
        isOkE (execOp P (Op.verify sender b₂ t₂)
          (runOp P (Op.verify sender b t) s)) = true ∧
        (runOp P (Op.verify sender b₂ t₂)
          (runOp P (Op.verify sender b t) s)).nextBidderToCheck =
            s.bidders.length)) ∧
    (∀ b, 0 < b → b < P.checkCost →
      execOp P (Op.verify sender b t) s = .ok { s with now := t }) ∧
    execOp P (Op.verify sender 0 t) s = .error .zeroBudget := by
  refine ⟨?_, ?_, ?_⟩
  · intro b hb1 hb2 hlen
    have hdiv : b / P.checkCost = 1 := by
      refine Nat.div_eq_of_lt_le (by omega) ?_
      rw [Nat.succ_mul]
      omega
    have hstop : s.nextBidderToCheck + 1 =
        min s.bidders.length (s.nextBidderToCheck + b / P.checkCost) := by
      rw [hdiv]
      exact (Nat.min_eq_right (by omega)).symm
    set S1 : State := { s with
      now := t
      nextBidderToCheck := s.nextBidderToCheck + 1
      events := s.events ++ [Event.biddersChecked sender s.nextBidderToCheck
        (s.nextBidderToCheck + 1)] } with hS1
    have hexec : execOp P (Op.verify sender b t) s = .ok S1 := by
      rw [hS1]
      exact verify_progress P sender b t s (s.nextBidderToCheck + 1) hlock hclock hphase
        (by omega) hstop (by omega) hcomp
    have hrun1 : runOp P (Op.verify sender b t) s = S1 := by
      unfold runOp
      rw [hexec]
    refine ⟨?_, ?_, ?_, ?_⟩
    · rw [hexec]
      rfl
    · rw [hrun1, hS1]
    · rw [hrun1, hS1]
      have hne2 : s.nextBidderToCheck + 1 ≠ s.bidders.length := by omega
      simp [isClaimingAvailable, hne2]
    · intro b₂ t₂ ht₂ hb₂
      rw [hrun1]
      have hb₂0 : b₂ ≠ 0 := by
        have h1 : 1 * P.checkCost ≤
            (s.bidders.length - (s.nextBidderToCheck + 1)) * P.checkCost :=
          Nat.mul_le_mul_right _ (by omega)
        omega
      have hafford : s.bidders.length - (s.nextBidderToCheck + 1) ≤ b₂ / P.checkCost :=
        (Nat.le_div_iff_mul_le hcost).mpr hb₂
      have hexec2 : execOp P (Op.verify sender b₂ t₂) S1 = .ok { S1 with
          now := t₂
          nextBidderToCheck := s.bidders.length
          events := S1.events ++ [Event.biddersChecked sender
            (s.nextBidderToCheck + 1) s.bidders.length] } := by
        have hpr := verify_progress P sender b₂ t₂ S1 s.bidders.length
          (by rw [hS1]; exact hlock)
          (by rw [hS1]; show t ≤ t₂; exact ht₂)
          (by omega) hb₂0
          (by
            rw [hS1]
            show s.bidders.length =
              min s.bidders.length (s.nextBidderToCheck + 1 + b₂ / P.checkCost)
            exact (Nat.min_eq_left (by omega)).symm)
          (by rw [hS1]; show s.nextBidderToCheck + 1 < s.bidders.length; omega)
          (by
            rw [hS1]
            intro i hi hnext
            have hi' : i < s.bidders.length := hi
            have hnext' : s.nextBidderToCheck + 1 ≤ i := hnext
            show compliant P s (s.bidders.getD i 0) = true
            exact hcomp i hi' (by omega))
        rw [hS1] at hpr ⊢
        exact hpr
      refine ⟨?_, ?_⟩
      · rw [hexec2]
        rfl
      · unfold runOp
        rw [hexec2]
  · intro b hb0 hblt
    have hdiv0 : b / P.checkCost = 0 := Nat.div_eq_of_lt hblt
    refine verify_noop P sender b t s hlock hclock hphase (by omega) ?_
    rw [hdiv0, Nat.add_zero]
    exact Nat.min_le_right _ _
  · show verifyBiddingCorrectness P sender 0 t s = _
    simp only [verifyBiddingCorrectness]
    rw [if_neg (by simp [hlock]), if_neg (by omega), if_neg (by omega)]
    simp only [ite_true]

/-- C4 witness: the compliant three-bidder state; in particular a
zero-budget call fails there. -/
theorem verify_budget_behaviour_witness :
    0 < Pex.checkCost ∧ sThree.locked = false ∧ Pex.endCancellationDate ≤ 31 ∧
      (∀ i < sThree.bidders.length, sThree.nextBidderToCheck ≤ i →
        compliant Pex sThree (sThree.bidders.getD i 0) = true) ∧
      execOp Pex (Op.verify 9 0 31) sThree = .error .zeroBudget :=
  ⟨by decide, rfl, by decide, by decide,
    (verify_budget_behaviour Pex 9 31 sThree (by decide) rfl (by decide) (by decide)
      (by decide)).2.2⟩

/-- C1: after every successful sequence of bid, cancelBid and forceRefund
calls from the initial state, `totalDeposited` equals the sum of
`depositedAmount` over all active (unclaimed) entries, and the ledger's
held collateral balance equals `totalDeposited` plus the
claimed-but-not-yet-released amounts. -/
theorem conservation_bid_cancel_force (P : Params) (hP : ParamsWF P) (ops : List Op)
    (hops : ∀ op ∈ ops, isBCF op = true) (s : State)
    (h : execTrace P ops initState = .ok s) :
    s.totalDepositedETH = activeSum s ∧
      s.ethBalance = s.totalDepositedETH + claimedSum s := by
  obtain ⟨_, _, hmin, _⟩ := hP
  have hA := acct_trace P hmin ops initState s acct_init hops h
  obtain ⟨hact, hclm⟩ := sums_of_noClaims s hA.nocl
  have h1 := hA.total
  have h2 := hA.bal
  refine ⟨?_, ?_⟩ <;> omega

/-- C1 witness: conservation after the concrete bid/bid/cancel trace. -/
theorem conservation_bid_cancel_force_witness :
    ParamsWF Pex ∧ (∀ op ∈ trcLedger, isBCF op = true) ∧
      execTrace Pex trcLedger initState = .ok sLedger ∧
      (sLedger.totalDepositedETH = activeSum sLedger ∧
        sLedger.ethBalance = sLedger.totalDepositedETH + claimedSum sLedger) :=
  ⟨by decide, by decide, rfl,
    conservation_bid_cancel_force Pex (by decide) trcLedger (by decide) sLedger rfl⟩

/-- C3 counterexample: the claim "isClaimingAvailable is true exactly when
nextCheckIndex equals the bidder count" is false on the code: in the
reachable state where the only bid has been cancelled during the bidding
window, the cursor (0) equals the bidder count (0), yet claiming is not
available, because the cancellation window has not ended. -/
theorem claiming_iff_cursor_counterexample :
    execTrace Pex trcEmptyAgain initState = .ok sEmptyAgain ∧
      sEmptyAgain.nextBidderToCheck = sEmptyAgain.bidders.length ∧
      isClaimingAvailable Pex sEmptyAgain = false :=
  ⟨rfl, rfl, rfl⟩

/-- C3 (amended): in every reachable state `nextCheckIndex` never exceeds
the current bidder-list length; `nextCheckIndex` never decreases on any
successful call; `isClaimingAvailable` is true exactly when the
cancellation window has ended and `nextCheckIndex` equals the bidder
count; and once true it stays true on every successful call (sticky). -/
theorem verification_cursor_invariants (P : Params) (hP : ParamsWF P) :
    (∀ (ops : List Op) (s : State), execTrace P ops initState = .ok s →
      s.nextBidderToCheck ≤ s.bidders.length) ∧
    (∀ (op : Op) (s s' : State), execOp P op s = .ok s' →
      s.nextBidderToCheck ≤ s'.nextBidderToCheck) ∧
    (∀ s : State, isClaimingAvailable P s = true ↔
      (P.endCancellationDate ≤ s.now ∧ s.nextBidderToCheck = s.bidders.length)) ∧
    (∀ (op : Op) (s s' : State), isClaimingAvailable P s = true →
      execOp P op s = .ok s' → isClaimingAvailable P s' = true) := by
  have hiff : ∀ s : State, isClaimingAvailable P s = true ↔
      (P.endCancellationDate ≤ s.now ∧ s.nextBidderToCheck = s.bidders.length) := by
    intro s
    unfold isClaimingAvailable
    rw [Bool.and_eq_true, decide_eq_true_eq, beq_iff_eq]
  refine ⟨?_, ?_, hiff, ?_⟩
  · intro ops s h
    exact (inv37_trace P ops initState s (inv37_init P) h).1
  · exact next_mono P
  · intro op s s' hav h
    exact (hiff s').mpr (sticky_step P hP op s s' ((hiff s).mp hav) h)

/-- C3 witness: the amended invariants at the example deployment; in
particular the availability equivalence at the verified single-bidder
state, and the cursor bound after a concrete bid. -/
theorem verification_cursor_invariants_witness :
    ParamsWF Pex ∧
      (isClaimingAvailable Pex sReady = true ↔
        (Pex.endCancellationDate ≤ sReady.now ∧
          sReady.nextBidderToCheck = sReady.bidders.length)) :=
  ⟨by decide, (verification_cursor_invariants Pex (by decide)).2.2.1 sReady⟩

end WorkLock
